import Mathlib

/-!
Shallow embedding of the `scratch_genetic` repository (src/network.rs, src/neuron.rs).

The Rust data types are embedded as Lean structures parametrised by the scalar
type `α`: for claims about the binary model format we instantiate `α := ℕ`,
where a scalar stands for the 64-bit pattern of the `f64` (the serialiser only
transports the 8 big-endian bytes of that pattern, so this is bit-faithful);
for claims about the forward pass, mutation and crossover we instantiate
`α := ℚ` (exact arithmetic standing for the numeric value of the `f64`).

Randomness (`thread_rng`) is embedded as an oracle `g : ℕ → ℚ` of uniform
`[0,1)` draws together with a running counter: `gen_bool(p)` on draw `r` is
`r < p` (true with probability `p` for uniform `r`), and `gen_range(lo..hi)`
on draw `u` is `lo + u * (hi - lo)` when `lo < hi` and a panic (`none`) when
the range is empty, exactly as in the `rand` crate.  Functions that can panic
in Rust (index out of range, `read_exact` failure, empty sample range) return
`Option`, with `none` standing for the panic.
-/

/-- `NeuronConnection` from src/neuron.rs (one weighted, offset edge). -/
structure NeuronConnection (α : Type) where
  weight : α
  offset : α
  weight_mutate_chance : α
  weight_mutate_amount : α
  offset_mutate_chance : α
  offset_mutate_amount : α
  deriving DecidableEq

/-- `NeuronConnectionSet` from src/neuron.rs (all edges into one neuron). -/
structure NeuronConnectionSet (α : Type) where
  conns : List (NeuronConnection α)
  activation_thresh : α
  trait_swap_chance : α
  deriving DecidableEq

/-- `NeuronConnectionMap` from src/neuron.rs (one layer of connection sets). -/
structure NeuronConnectionMap (α : Type) where
  map : List (NeuronConnectionSet α)
  deriving DecidableEq

/-- `Network` from src/network.rs. `usize` fields are embedded as `ℕ`. -/
structure Network (α : Type) where
  maps : List (NeuronConnectionMap α)
  layer_sizes : List ℕ
  num_inputs : ℕ
  num_outputs : ℕ
  deriving DecidableEq

/-! ## Big-endian 8-byte words (`usize::to_be_bytes` / `f64::to_be_bytes`) -/

/-- The 8 big-endian bytes of the low 64 bits of `n`
(`to_be_bytes` of a `usize`, or of the bit pattern of an `f64`). -/
def toBeBytes (n : ℕ) : List ℕ :=
  [n / 2 ^ 56 % 256, n / 2 ^ 48 % 256, n / 2 ^ 40 % 256, n / 2 ^ 32 % 256,
   n / 2 ^ 24 % 256, n / 2 ^ 16 % 256, n / 2 ^ 8 % 256, n % 256]

/-- Big-endian byte list to natural number (`usize::from_be_bytes`). -/
def fromBeBytesList (bs : List ℕ) : ℕ :=
  bs.foldl (fun acc b => acc * 256 + b) 0

/-- One `read_exact` of an 8-byte word: returns the word and the rest of the
stream, or `none` when fewer than 8 bytes remain (the Rust code `expect`s). -/
def readWord : List ℕ → Option (ℕ × List ℕ)
  | b0 :: b1 :: b2 :: b3 :: b4 :: b5 :: b6 :: b7 :: rest =>
      some (fromBeBytesList [b0, b1, b2, b3, b4, b5, b6, b7], rest)
  | _ => none

/-- The sentinel word terminating the layer-size list
(`0xFFFFFFFFFFFFFFFF`, i.e. `2 ^ 64 - 1`). -/
def sentinelWord : ℕ := 2 ^ 64 - 1

/-- The `while usize::from_be_bytes(..) != 0xFFFFFFFFFFFFFFFF` loop of
`Network::from_file`: reads 8-byte words into `layer_sizes` until the
sentinel; `none` when the stream ends before the sentinel. -/
def readLayerSizes : List ℕ → Option (List ℕ × List ℕ)
  | b0 :: b1 :: b2 :: b3 :: b4 :: b5 :: b6 :: b7 :: rest =>
      let w := fromBeBytesList [b0, b1, b2, b3, b4, b5, b6, b7]
      if w = sentinelWord then some ([], rest)
      else
        match readLayerSizes rest with
        | none => none
        | some (ls, rest2) => some (w :: ls, rest2)
  | _ => none

/-! ## Body layout (`big_arr`) -/

/-- The `big_arr_size` computation of `from_file` / `save_model`:
`8 * 6` bytes per connection plus `2 * 8` bytes per output neuron.
The three summands of the connection count mirror the source lines
`num_inputs * layer_sizes[0]`, the `layer_sizes[i] * layer_sizes[i + 1]`
loop, and `layer_sizes[last] * num_outputs`; the trailing loop over
`0..=layer_sizes.len()` adds `2 * 8 * out_layer_size` per map.
Callers must ensure `layer_sizes` is non-empty (the source indexes
`layer_sizes[0]`, panicking otherwise). -/
def bigArrSize (ls : List ℕ) (ni no : ℕ) : ℕ :=
  (ni * ls.headD 0
    + ((ls.zip ls.tail).map (fun p => p.1 * p.2)).sum
    + ls.getLastD 0 * no) * (8 * 6)
  + (((ls.map (fun s => 2 * 8 * s)).sum) + 2 * 8 * no)

/-- The per-map `(out_layer_size, in_layer_size)` pairs of the
`for i in 0..=layer_sizes.len()` loops: element `i` is
`(layer_sizes[i]` or `num_outputs`, `num_inputs` or `layer_sizes[i-1])`. -/
def shapeList : List ℕ → ℕ → ℕ → List (ℕ × ℕ)
  | [], ni, no => [(no, ni)]
  | a :: rest, ni, no => (a, ni) :: shapeList rest a no

/-! ## Body serialisation (`save_model` fills `big_arr`) -/

/-- The six 8-byte fields written per connection, in source order:
weight, offset, weight_mutate_chance, weight_mutate_amount,
offset_mutate_chance, offset_mutate_amount. -/
def encodeConn (c : NeuronConnection ℕ) : List ℕ :=
  toBeBytes c.weight ++ toBeBytes c.offset
    ++ toBeBytes c.weight_mutate_chance ++ toBeBytes c.weight_mutate_amount
    ++ toBeBytes c.offset_mutate_chance ++ toBeBytes c.offset_mutate_amount

/-- All connections of a set, then `activation_thresh`, `trait_swap_chance`. -/
def encodeSet (s : NeuronConnectionSet ℕ) : List ℕ :=
  (s.conns.map encodeConn).flatten
    ++ toBeBytes s.activation_thresh ++ toBeBytes s.trait_swap_chance

/-- All sets of a map, in order. -/
def encodeMap (m : NeuronConnectionMap ℕ) : List ℕ :=
  (m.map.map encodeSet).flatten

/-- All maps of a network, in order: the full `big_arr` body written by
`save_model` (the write cursor `x` advances one byte at a time, so the
buffer content is exactly this concatenation). -/
def encodeMaps (maps : List (NeuronConnectionMap ℕ)) : List ℕ :=
  (maps.map encodeMap).flatten

/-- `Network::save_model`, as the byte stream written to the file.
`none` models the two panics: `layer_sizes[0]` on an empty `layer_sizes`,
and a `big_arr` index overrun when the maps hold more data than the
metadata-derived `big_arr_size`.  If the maps hold less, the untouched
tail of the zero-initialised `big_arr` is written out as zero padding. -/
def Network.save_model (n : Network ℕ) : Option (List ℕ) :=
  if n.layer_sizes.isEmpty then none
  else
    let size := bigArrSize n.layer_sizes n.num_inputs n.num_outputs
    let body := encodeMaps n.maps
    if size < body.length then none
    else
      some (toBeBytes n.num_inputs ++ toBeBytes n.num_outputs
        ++ (n.layer_sizes.map toBeBytes).flatten ++ toBeBytes sentinelWord
        ++ body ++ List.replicate (size - body.length) 0)

/-! ## Body deserialisation (`from_file` walks `big_arr`) -/

/-- Read the six doubles of one connection, in source order. -/
def parseConn (bs : List ℕ) : Option (NeuronConnection ℕ × List ℕ) := do
  let (w, bs1) ← readWord bs
  let (o, bs2) ← readWord bs1
  let (wmc, bs3) ← readWord bs2
  let (wma, bs4) ← readWord bs3
  let (omc, bs5) ← readWord bs4
  let (oma, bs6) ← readWord bs5
  some (⟨w, o, wmc, wma, omc, oma⟩, bs6)

/-- Read `cnt` consecutive connections (`for _ in 0..in_layer_size`). -/
def parseConns : ℕ → List ℕ → Option (List (NeuronConnection ℕ) × List ℕ)
  | 0, bs => some ([], bs)
  | cnt + 1, bs => do
      let (c, bs1) ← parseConn bs
      let (rest, bs2) ← parseConns cnt bs1
      some (c :: rest, bs2)

/-- Read one connection set: `inWidth` connections then the two trailing
doubles `activation_thresh`, `trait_swap_chance`. -/
def parseSet (inWidth : ℕ) (bs : List ℕ) :
    Option (NeuronConnectionSet ℕ × List ℕ) := do
  let (cs, bs1) ← parseConns inWidth bs
  let (at0, bs2) ← readWord bs1
  let (ts, bs3) ← readWord bs2
  some (⟨cs, at0, ts⟩, bs3)

/-- Read `outWidth` consecutive sets (`for _ in 0..out_layer_size`). -/
def parseSets : ℕ → ℕ → List ℕ → Option (List (NeuronConnectionSet ℕ) × List ℕ)
  | 0, _, bs => some ([], bs)
  | cnt + 1, inWidth, bs => do
      let (s, bs1) ← parseSet inWidth bs
      let (rest, bs2) ← parseSets cnt inWidth bs1
      some (s :: rest, bs2)

/-- Read one map per `(out, in)` shape pair, in layer order. -/
def parseMapsFromShapes :
    List (ℕ × ℕ) → List ℕ → Option (List (NeuronConnectionMap ℕ) × List ℕ)
  | [], bs => some ([], bs)
  | sh :: rest, bs => do
      let (sets, bs1) ← parseSets sh.1 sh.2 bs
      let (maps, bs2) ← parseMapsFromShapes rest bs1
      some (⟨sets⟩ :: maps, bs2)

/-- `Network::from_file`, on the file's byte content.  `none` models the
panics: a failed `read_exact` in the header, `layer_sizes[0]` on an empty
layer-size list, and a failed `read_exact` of the `big_arr` body (fewer
than `big_arr_size` bytes remain).  Bytes beyond `big_arr_size` are never
read. -/
def Network.from_file (bytes : List ℕ) : Option (Network ℕ) := do
  let (ni, r1) ← readWord bytes
  let (no, r2) ← readWord r1
  let (ls, r3) ← readLayerSizes r2
  if ls.isEmpty then none
  else
    let size := bigArrSize ls ni no
    if r3.length < size then none
    else do
      let (maps, _) ← parseMapsFromShapes (shapeList ls ni no) (r3.take size)
      some ⟨maps, ls, ni, no⟩

/-! ## Forward pass (`activated`, `layer_activations`, `result`), over `ℚ` -/

/-- The accumulation loop of `NeuronConnectionSet::activated`: state
`(byte_ind, bit, sum)` walks the connections; the read
`input_bits[byte_ind]` is `get?`, with `none` for the index panic. -/
def activatedSum (input_bits : List ℕ) :
    List (NeuronConnection ℚ) → ℕ → ℕ → ℚ → Option ℚ
  | [], _, _, sum => some sum
  | conn :: rest, byte_ind, bit, sum =>
      match input_bits.get? byte_ind with
      | none => none
      | some byte =>
          let input : ℕ := byte >>> (7 - bit) &&& 1
          let sum2 := sum + conn.weight * (input : ℚ) + conn.offset
          if bit + 1 = 8 then activatedSum input_bits rest (byte_ind + 1) 0 sum2
          else activatedSum input_bits rest byte_ind (bit + 1) sum2

/-- `NeuronConnectionSet::activated`: `sum > activation_thresh` after
accumulating `weight * input + offset` over all connections. -/
def NeuronConnectionSet.activated (s : NeuronConnectionSet ℚ)
    (input_bits : List ℕ) : Option Bool :=
  (activatedSum input_bits s.conns 0 0 0).map
    (fun sum => decide (s.activation_thresh < sum))

/-- The packing loop of `NeuronConnectionMap::layer_activations`: state
`(curr_byte, bit, activates)`; a byte is pushed only when `bit` reaches 8. -/
def layerActAux (input_bits : List ℕ) :
    List (NeuronConnectionSet ℚ) → ℕ → ℕ → List ℕ → Option (List ℕ)
  | [], _, _, activates => some activates
  | node :: rest, curr_byte, bit, activates =>
      match node.activated input_bits with
      | none => none
      | some a =>
          let curr2 := if a then curr_byte + (1 <<< (7 - bit)) else curr_byte
          if bit + 1 = 8 then layerActAux input_bits rest 0 0 (activates ++ [curr2])
          else layerActAux input_bits rest curr2 (bit + 1) activates

/-- `NeuronConnectionMap::layer_activations`. -/
def NeuronConnectionMap.layer_activations (m : NeuronConnectionMap ℚ)
    (input_bits : List ℕ) : Option (List ℕ) :=
  layerActAux input_bits m.map 0 0 []

/-- `Network::result`: sequential forward pass, each map's packed output
feeding the next map.  The source reads no randomness here, so the
embedding needs no oracle argument. -/
def Network.result (n : Network ℚ) (input_bits : List ℕ) : Option (List ℕ) :=
  n.maps.foldl (fun last_bits m => last_bits.bind m.layer_activations)
    (some input_bits)

/-! ## Randomised operators (`mutate`, `trade_with`, `new_random`), over `ℚ`

The oracle `g : ℕ → ℚ` supplies the successive uniform `[0,1)` draws of
`thread_rng`; a counter `k` indexes the next unused draw. -/

/-- `Rng::gen_range(lo..hi)` (half-open): `none` is the
`cannot sample empty range` panic when `lo ≥ hi`; otherwise the draw
`u ∈ [0,1)` yields `lo + u * (hi - lo)`. -/
def genRange (lo hi u : ℚ) : Option ℚ :=
  if lo < hi then some (lo + u * (hi - lo)) else none

/-- `NeuronConnection::mutate`: with probability `weight_mutate_chance`
re-sample `weight` from `(weight - amount)..(weight + amount)`, then
independently likewise for `offset`.  `gen_bool(p)` on draw `r ∈ [0,1)`
is `r < p`. -/
def NeuronConnection.mutate (g : ℕ → ℚ) (c : NeuronConnection ℚ) (k : ℕ) :
    Option (NeuronConnection ℚ × ℕ) := do
  let (c1, k1) ←
    if g k < c.weight_mutate_chance then
      (genRange (c.weight - c.weight_mutate_amount)
        (c.weight + c.weight_mutate_amount) (g (k + 1))).map
        (fun w => ({ c with weight := w }, k + 2))
    else some (c, k + 1)
  if g k1 < c1.offset_mutate_chance then
    (genRange (c1.offset - c1.offset_mutate_amount)
      (c1.offset + c1.offset_mutate_amount) (g (k1 + 1))).map
      (fun o => ({ c1 with offset := o }, k1 + 2))
  else some (c1, k1 + 1)

/-- Iterated `mutate` calls on one connection (for the `any number of
successive mutate() calls` part of the mutation no-op property). -/
def mutateIter (g : ℕ → ℚ) : NeuronConnection ℚ → ℕ → ℕ →
    Option (NeuronConnection ℚ × ℕ)
  | c, k, 0 => some (c, k)
  | c, k, steps + 1 => do
      let (c1, k1) ← c.mutate g k
      mutateIter g c1 k1 steps

/-- The zip loop of `NeuronConnectionSet::trade_with`: one `gen_bool` draw
per positional pair, comparing against the *self* set's
`trait_swap_chance` `p`; on success the two connections are exchanged
wholesale.  Surplus elements of the longer side are untouched. -/
def tradeConns (g : ℕ → ℚ) (p : ℚ) :
    List (NeuronConnection ℚ) → List (NeuronConnection ℚ) → ℕ →
    List (NeuronConnection ℚ) × List (NeuronConnection ℚ) × ℕ
  | [], os, k => ([], os, k)
  | s :: ss, [], k => (s :: ss, [], k)
  | s :: ss, o :: os, k =>
      let r := tradeConns g p ss os (k + 1)
      if g k < p then (o :: r.1, s :: r.2.1, r.2.2)
      else (s :: r.1, o :: r.2.1, r.2.2)

/-- `NeuronConnectionSet::trade_with` (only the `conns` are exchanged;
thresholds and swap chances stay with their set). -/
def NeuronConnectionSet.trade_with (g : ℕ → ℚ) (s o : NeuronConnectionSet ℚ)
    (k : ℕ) : NeuronConnectionSet ℚ × NeuronConnectionSet ℚ × ℕ :=
  let r := tradeConns g s.trait_swap_chance s.conns o.conns k
  ({ s with conns := r.1 }, { o with conns := r.2.1 }, r.2.2)

/-- The zip loop of `NeuronConnectionMap::trade_with` over the two maps'
sets. -/
def tradeSets (g : ℕ → ℚ) :
    List (NeuronConnectionSet ℚ) → List (NeuronConnectionSet ℚ) → ℕ →
    List (NeuronConnectionSet ℚ) × List (NeuronConnectionSet ℚ) × ℕ
  | [], os, k => ([], os, k)
  | s :: ss, [], k => (s :: ss, [], k)
  | s :: ss, o :: os, k =>
      let r1 := s.trade_with g o k
      let r2 := tradeSets g ss os r1.2.2
      (r1.1 :: r2.1, r1.2.1 :: r2.2.1, r2.2.2)

/-- `NeuronConnectionMap::trade_with`. -/
def NeuronConnectionMap.trade_with (g : ℕ → ℚ) (m o : NeuronConnectionMap ℚ)
    (k : ℕ) : NeuronConnectionMap ℚ × NeuronConnectionMap ℚ × ℕ :=
  let r := tradeSets g m.map o.map k
  (⟨r.1⟩, ⟨r.2.1⟩, r.2.2)

/-- The `for i in 0..self.maps.len()` loop of `Network::random_trade`:
`other.maps[i]` is indexed for every `i` below self's length, so `none`
(index panic) when `other` runs out of maps first; surplus maps of
`other` are untouched. -/
def tradeMaps (g : ℕ → ℚ) :
    List (NeuronConnectionMap ℚ) → List (NeuronConnectionMap ℚ) → ℕ →
    Option (List (NeuronConnectionMap ℚ) × List (NeuronConnectionMap ℚ) × ℕ)
  | [], os, k => some ([], os, k)
  | _ :: _, [], _ => none
  | m :: ms, o :: os, k =>
      let r1 := m.trade_with g o k
      match tradeMaps g ms os r1.2.2 with
      | none => none
      | some r2 => some (r1.1 :: r2.1, r1.2.1 :: r2.2.1, r2.2.2)

/-- `Network::random_trade`. -/
def Network.random_trade (g : ℕ → ℚ) (n o : Network ℚ) (k : ℕ) :
    Option (Network ℚ × Network ℚ × ℕ) :=
  (tradeMaps g n.maps o.maps k).map
    (fun r => ({ n with maps := r.1 }, { o with maps := r.2.1 }, r.2.2))

/-! ## Random construction (`new_random`) -/

/-- `NeuronConnection::new_random`: weight and offset are fresh draws
(uniform on `[-1,1]` resp. `[-0.5,0.5]` in the source; the oracle supplies
the drawn value directly), mutation parameters copied verbatim. -/
def NeuronConnection.new_random (g : ℕ → ℚ) (k : ℕ)
    (wmc wma omc oma : ℚ) : NeuronConnection ℚ × ℕ :=
  (⟨g k, g (k + 1), wmc, wma, omc, oma⟩, k + 2)

/-- The connection-building loop of `NeuronConnectionSet::new_random`. -/
def newConns (g : ℕ → ℚ) (wmc wma omc oma : ℚ) :
    ℕ → ℕ → List (NeuronConnection ℚ) × ℕ
  | 0, k => ([], k)
  | size + 1, k =>
      let r1 := NeuronConnection.new_random g k wmc wma omc oma
      let r2 := newConns g wmc wma omc oma size r1.2
      (r1.1 :: r2.1, r2.2)

/-- `NeuronConnectionSet::new_random`. -/
def NeuronConnectionSet.new_random (g : ℕ → ℚ) (k : ℕ) (size : ℕ)
    (at0 ts wmc wma omc oma : ℚ) : NeuronConnectionSet ℚ × ℕ :=
  let r := newConns g wmc wma omc oma size k
  (⟨r.1, at0, ts⟩, r.2)

/-- The set-building loop of `NeuronConnectionMap::new_random`. -/
def newSets (g : ℕ → ℚ) (neuron_size : ℕ) (at0 ts wmc wma omc oma : ℚ) :
    ℕ → ℕ → List (NeuronConnectionSet ℚ) × ℕ
  | 0, k => ([], k)
  | size + 1, k =>
      let r1 := NeuronConnectionSet.new_random g k neuron_size at0 ts wmc wma omc oma
      let r2 := newSets g neuron_size at0 ts wmc wma omc oma size r1.2
      (r1.1 :: r2.1, r2.2)

/-- `NeuronConnectionMap::new_random` (`size` sets of `neuron_size`
connections each). -/
def NeuronConnectionMap.new_random (g : ℕ → ℚ) (k : ℕ)
    (size neuron_size : ℕ) (at0 ts wmc wma omc oma : ℚ) :
    NeuronConnectionMap ℚ × ℕ :=
  let r := newSets g neuron_size at0 ts wmc wma omc oma size k
  (⟨r.1⟩, r.2)

/-- The map-building loop of `Network::new_random`, one map per
`(out, in)` shape pair.  The source spawns one task per map and joins
them back in layer order; the oracle schedule is sequentialised, which
leaves the shape (and any per-map draw) unaffected. -/
def newMaps (g : ℕ → ℚ) (at0 ts wmc wma omc oma : ℚ) :
    List (ℕ × ℕ) → ℕ → List (NeuronConnectionMap ℚ) × ℕ
  | [], k => ([], k)
  | sh :: rest, k =>
      let r1 := NeuronConnectionMap.new_random g k sh.1 sh.2 at0 ts wmc wma omc oma
      let r2 := newMaps g at0 ts wmc wma omc oma rest r1.2
      (r1.1 :: r2.1, r2.2)

/-- `Network::new_random`.  `none` models the `layer_sizes[0]` index panic
of the first spawned task when `layer_sizes` is empty (the `i == 0` branch
is taken first and indexes `layer_sizes[0]`). -/
def Network.new_random (g : ℕ → ℚ) (k : ℕ) (layer_sizes : List ℕ)
    (num_inputs num_outputs : ℕ) (at0 ts wmc wma omc oma : ℚ) :
    Option (Network ℚ × ℕ) :=
  if layer_sizes.isEmpty then none
  else
    let r := newMaps g at0 ts wmc wma omc oma
      (shapeList layer_sizes num_inputs num_outputs) k
    some (⟨r.1, layer_sizes, num_inputs, num_outputs⟩, r.2)

/-! ## Specification-side definitions

These follow the spec's wording (bit addressing, MSB-first packing,
shape and boundedness side conditions) and are compared against the
source-derived functions above in the theorems. -/

/-- Logical input bit `i` of a packed byte sequence: bit position
`7 - (i mod 8)` of byte `i / 8` (MSB-first), per the spec's addressing. -/
def bitAt (input : List ℕ) (i : ℕ) : ℕ :=
  input.getD (i / 8) 0 >>> (7 - i % 8) &&& 1

/-- Placeholder connection for positional indexing in sums. -/
def cDefault : NeuronConnection ℚ := ⟨0, 0, 0, 0, 0, 0⟩

/-- The spec's activation sum: `Σ i, weight_i * b_i + offset_i` with `b_i`
the `i`-th MSB-first input bit (offset added unconditionally). -/
def specActSum (s : NeuronConnectionSet ℚ) (input : List ℕ) : ℚ :=
  ∑ i ∈ Finset.range s.conns.length,
    ((s.conns.getD i cDefault).weight * (bitAt input i : ℚ)
      + (s.conns.getD i cDefault).offset)

/-- Running form of the spec's activation sum, starting at input bit
position `p`: `weight * bit + offset` summed along the connection list. -/
def actContrib (input : List ℕ) : List (NeuronConnection ℚ) → ℕ → ℚ
  | [], _ => 0
  | c :: rest, p =>
      c.weight * (bitAt input p : ℚ) + c.offset + actContrib input rest (p + 1)

/-- The activation sequence of a map: `activated` of each set in order
(`none` if any activation panics). -/
def setActs (input : List ℕ) : List (NeuronConnectionSet ℚ) → Option (List Bool)
  | [] => some []
  | s :: rest =>
      match s.activated input, setActs input rest with
      | some a, some as => some (a :: as)
      | _, _ => none

/-- MSB-first value of (at most 8) bits. -/
def byteOfBitsMSB (bs : List Bool) : ℕ :=
  bs.foldl (fun acc b => 2 * acc + (if b then 1 else 0)) 0

/-- The spec's truncating MSB-first packing: one byte per full group of 8
booleans, any trailing partial group dropped. -/
def packTruncate : List Bool → List ℕ
  | b0 :: b1 :: b2 :: b3 :: b4 :: b5 :: b6 :: b7 :: rest =>
      byteOfBitsMSB [b0, b1, b2, b3, b4, b5, b6, b7] :: packTruncate rest
  | _ => []

/-- Running form of the packing loop state `(curr_byte, bit)` applied to
a precomputed activation sequence (mirrors `layerActAux`). -/
def packAux : List Bool → ℕ → ℕ → List ℕ
  | [], _, _ => []
  | b :: rest, curr, bit =>
      let curr2 := if b then curr + (1 <<< (7 - bit)) else curr
      if bit + 1 = 8 then curr2 :: packAux rest 0 0
      else packAux rest curr2 (bit + 1)

/-- Body byte count determined by a shape list: each of the `out` sets of
a map holds `in` connections of 48 bytes plus its own 16 trailing bytes. -/
def sizeOfShapes (shapes : List (ℕ × ℕ)) : ℕ :=
  (shapes.map (fun sh => sh.1 * (48 * sh.2 + 16))).sum

/-- Does a list of maps have exactly the given `(out, in)` widths:
map `i` has `out_i` sets of `in_i` connections each. -/
def mapsMatchB {α : Type} :
    List (NeuronConnectionMap α) → List (ℕ × ℕ) → Bool
  | [], [] => true
  | m :: ms, sh :: shs =>
      m.map.length == sh.1 && m.map.all (fun s => s.conns.length == sh.2)
        && mapsMatchB ms shs
  | _, _ => false

/-- The data-model shape invariant of a network: its maps match the
shapes derived from `layer_sizes`, `num_inputs`, `num_outputs`. -/
def Network.wfShape {α : Type} (n : Network α) : Bool :=
  mapsMatchB n.maps (shapeList n.layer_sizes n.num_inputs n.num_outputs)

/-- All six scalar bit patterns of a connection fit in 64 bits (always
true of an `f64` bit pattern). -/
def connBounded (c : NeuronConnection ℕ) : Bool :=
  c.weight < 2 ^ 64 && c.offset < 2 ^ 64
    && c.weight_mutate_chance < 2 ^ 64 && c.weight_mutate_amount < 2 ^ 64
    && c.offset_mutate_chance < 2 ^ 64 && c.offset_mutate_amount < 2 ^ 64

/-- All scalar bit patterns in all maps fit in 64 bits. -/
def mapsBounded (maps : List (NeuronConnectionMap ℕ)) : Bool :=
  maps.all (fun m => m.map.all (fun s =>
    s.conns.all connBounded
      && s.activation_thresh < 2 ^ 64 && s.trait_swap_chance < 2 ^ 64))

/-- Two set lists have pairwise equal connection counts. -/
def setsSameShape :
    List (NeuronConnectionSet ℚ) → List (NeuronConnectionSet ℚ) → Bool
  | [], [] => true
  | s :: ss, t :: ts => s.conns.length == t.conns.length && setsSameShape ss ts
  | _, _ => false

/-- Two map lists have pairwise equal set counts and connection counts. -/
def mapsSameShape :
    List (NeuronConnectionMap ℚ) → List (NeuronConnectionMap ℚ) → Bool
  | [], [] => true
  | m :: ms, o :: os => setsSameShape m.map o.map && mapsSameShape ms os
  | _, _ => false

/-- Two networks have identical shape (for crossover). -/
def Network.sameShape (n o : Network ℚ) : Bool :=
  mapsSameShape n.maps o.maps

/-- The connection at slot (set `j`, connection `l`) of a set list. -/
def getSC (sets : List (NeuronConnectionSet ℚ)) (j l : ℕ) :
    Option (NeuronConnection ℚ) :=
  (sets.get? j).bind fun s => s.conns.get? l

/-- The connection at slot (map `i`, set `j`, connection `l`) of a map
list, `none` when out of range. -/
def getMapsConn (maps : List (NeuronConnectionMap ℚ)) (i j l : ℕ) :
    Option (NeuronConnection ℚ) :=
  (maps.get? i).bind fun m => getSC m.map j l

/-- The connection at slot (map `i`, set `j`, connection `l`) of a
network, `none` when out of range. -/
def getConn (x : Network ℚ) (i j l : ℕ) : Option (NeuronConnection ℚ) :=
  getMapsConn x.maps i j l

/-! # Theorems -/

/-! ## Byte-level lemmas for the model format -/

theorem fromBe_toBe (w : ℕ) : fromBeBytesList (toBeBytes w) = w % 2 ^ 64 := by
  simp only [fromBeBytesList, toBeBytes, List.foldl]
  have h56 : (2 : ℕ) ^ 56 = 72057594037927936 := by norm_num
  have h48 : (2 : ℕ) ^ 48 = 281474976710656 := by norm_num
  have h40 : (2 : ℕ) ^ 40 = 1099511627776 := by norm_num
  have h32 : (2 : ℕ) ^ 32 = 4294967296 := by norm_num
  have h24 : (2 : ℕ) ^ 24 = 16777216 := by norm_num
  have h16 : (2 : ℕ) ^ 16 = 65536 := by norm_num
  have h8 : (2 : ℕ) ^ 8 = 256 := by norm_num
  have h64 : (2 : ℕ) ^ 64 = 18446744073709551616 := by norm_num
  rw [h56, h48, h40, h32, h24, h16, h8, h64]
  omega

theorem toBeBytes_length (w : ℕ) : (toBeBytes w).length = 8 := by
  simp [toBeBytes]

theorem readWord_toBe (w : ℕ) (h : w < 2 ^ 64) (rest : List ℕ) :
    readWord (toBeBytes w ++ rest) = some (w, rest) := by
  have hf := fromBe_toBe w
  simp only [toBeBytes, List.cons_append, List.nil_append, readWord] at hf ⊢
  rw [hf, Nat.mod_eq_of_lt h]

theorem readLayerSizes_sentinel (rest : List ℕ) :
    readLayerSizes (toBeBytes sentinelWord ++ rest) = some ([], rest) := by
  have hf := fromBe_toBe sentinelWord
  simp only [toBeBytes, List.cons_append, List.nil_append, readLayerSizes] at hf ⊢
  rw [hf]
  have : sentinelWord % 2 ^ 64 = sentinelWord := by
    simp [sentinelWord]
  rw [this]
  simp

theorem readLayerSizes_step (w : ℕ) (hw : w < 2 ^ 64) (hne : w ≠ sentinelWord)
    (bs : List ℕ) :
    readLayerSizes (toBeBytes w ++ bs)
      = (readLayerSizes bs).map (fun r => (w :: r.1, r.2)) := by
  have hf := fromBe_toBe w
  rw [Nat.mod_eq_of_lt hw] at hf
  simp only [toBeBytes, List.cons_append, List.nil_append, readLayerSizes] at hf ⊢
  rw [hf, if_neg hne]
  cases hb2 : readLayerSizes bs with
  | none => simp [hb2]
  | some r => cases r; simp [hb2]

theorem readLayerSizes_encode (ls : List ℕ) (rest : List ℕ)
    (hb : ∀ x ∈ ls, x < 2 ^ 64) (hs : ∀ x ∈ ls, x ≠ sentinelWord) :
    readLayerSizes ((ls.map toBeBytes).flatten ++ toBeBytes sentinelWord ++ rest)
      = some (ls, rest) := by
  induction ls with
  | nil => simpa using readLayerSizes_sentinel rest
  | cons a tail ih =>
      have ha : a < 2 ^ 64 := hb a (by simp)
      have hane : a ≠ sentinelWord := hs a (by simp)
      simp only [List.map_cons, List.flatten_cons, List.append_assoc]
      rw [readLayerSizes_step a ha hane, ← List.append_assoc,
        ih (fun x hx => hb x (by simp [hx])) (fun x hx => hs x (by simp [hx]))]
      rfl

/-! ## C8: determinism of the forward pass -/

/-- C8: `result` is a pure function of the network's fields and the input
bytes: the embedding of the forward pass takes no randomness oracle, so two
calls on networks with equal `maps` (whatever the metadata) give identical
output bytes. -/
theorem c8_result_deterministic (n1 n2 : Network ℚ) (bits : List ℕ)
    (h : n1.maps = n2.maps) : n1.result bits = n2.result bits := by
  unfold Network.result
  rw [h]

theorem c8_result_deterministic_witness :
    Network.result ⟨[⟨[⟨[], 0, 0⟩]⟩], [1], 1, 1⟩ [0]
      = Network.result ⟨[⟨[⟨[], 0, 0⟩]⟩], [2], 3, 4⟩ [0] :=
  c8_result_deterministic ⟨[⟨[⟨[], 0, 0⟩]⟩], [1], 1, 1⟩
    ⟨[⟨[⟨[], 0, 0⟩]⟩], [2], 3, 4⟩ [0] rfl

/-! ## C5: mutation no-ops (corrected: the zero-width re-sample panics) -/

theorem mutate_chance_zero_step (g : ℕ → ℚ) (c : NeuronConnection ℚ) (k : ℕ)
    (hc : c.weight_mutate_chance = 0) (hg : ∀ j, 0 ≤ g j)
    (c2 : NeuronConnection ℚ) (k2 : ℕ) (h : c.mutate g k = some (c2, k2)) :
    c2.weight = c.weight ∧ c2.weight_mutate_chance = 0 := by
  unfold NeuronConnection.mutate at h
  rw [hc, if_neg (not_lt.2 (hg k))] at h
  simp at h
  split at h
  · cases hgr : genRange (c.offset - c.offset_mutate_amount)
        (c.offset + c.offset_mutate_amount) (g (k + 1 + 1)) with
    | none => rw [hgr] at h; simp at h
    | some o =>
        rw [hgr] at h
        simp at h
        obtain ⟨h1, h2⟩ := h
        rw [← h1]
        exact ⟨rfl, hc⟩
  · simp at h
    obtain ⟨h1, h2⟩ := h
    rw [← h1]
    exact ⟨rfl, hc⟩

theorem mutateIter_chance_zero (g : ℕ → ℚ) (hg : ∀ j, 0 ≤ g j) :
    ∀ (steps : ℕ) (c : NeuronConnection ℚ) (k : ℕ)
      (c2 : NeuronConnection ℚ) (k2 : ℕ),
      c.weight_mutate_chance = 0 → mutateIter g c k steps = some (c2, k2) →
      c2.weight = c.weight := by
  intro steps
  induction steps with
  | zero =>
      intro c k c2 k2 _ h
      simp only [mutateIter] at h
      obtain ⟨rfl, rfl⟩ := by simpa using h
      rfl
  | succ m ih =>
      intro c k c2 k2 hc h
      simp only [mutateIter, Option.bind_eq_bind] at h
      cases hm : c.mutate g k with
      | none => rw [hm] at h; simp at h
      | some r =>
          rw [hm] at h
          simp only [Option.some_bind] at h
          obtain ⟨hw, hc1⟩ := mutate_chance_zero_step g c k hc hg r.1 r.2 (by
            rw [hm])
          rw [ih r.1 r.2 c2 k2 hc1 h, hw]

/-- C5 (amended): with `weight_mutate_chance = 0` (and well-formed coins
`0 ≤ g j`, as `thread_rng` draws lie in `[0,1)`), any number of successive
`mutate()` calls that complete leave `weight` unchanged; but with
`weight_mutate_amount = 0` and `weight_mutate_chance = 1` the call does
NOT complete normally: `gen_range` is given the empty range
`weight..weight` and panics (`none`), rather than re-sampling the same
weight. -/
theorem c5_mutate_noop_amended (g : ℕ → ℚ) (c : NeuronConnection ℚ) (k : ℕ) :
    (c.weight_mutate_chance = 0 → (∀ j, 0 ≤ g j) →
      ∀ (steps : ℕ) (c2 : NeuronConnection ℚ) (k2 : ℕ),
        mutateIter g c k steps = some (c2, k2) → c2.weight = c.weight)
    ∧ (c.weight_mutate_chance = 1 → c.weight_mutate_amount = 0 → g k < 1 →
        c.mutate g k = none) := by
  constructor
  · intro hc hg steps c2 k2 h
    exact mutateIter_chance_zero g hg steps c k c2 k2 hc h
  · intro h1 h2 h3
    unfold NeuronConnection.mutate
    rw [h1, h2, if_pos h3]
    have : ¬ (c.weight - 0 < c.weight + 0) := by simp
    simp [genRange, this]

theorem c5_mutate_noop_amended_witness :
    (⟨9, 0, 0, 0, 0, 0⟩ : NeuronConnection ℚ).weight = 9
    ∧ NeuronConnection.mutate (fun _ => 0) ⟨9, 0, 1, 0, 0, 0⟩ 0 = none :=
  ⟨(c5_mutate_noop_amended (fun _ => 0) ⟨9, 0, 0, 0, 0, 0⟩ 0).1 rfl
      (fun _ => le_refl 0) 5 ⟨9, 0, 0, 0, 0, 0⟩ 10 (by decide),
   (c5_mutate_noop_amended (fun _ => 0) ⟨9, 0, 1, 0, 0, 0⟩ 0).2 rfl rfl
      (by norm_num)⟩

/-- C5 counterexample: a connection with `weight_mutate_chance = 1` and
`weight_mutate_amount = 0` makes `mutate()` panic (`none`): the claim's
`the call completes normally with the same weight` is false on the code,
which passes the empty range `weight..weight` to `gen_range`. -/
theorem c5_mutate_noop_counterexample :
    (⟨0, 0, 1, 0, 0, 0⟩ : NeuronConnection ℚ).weight_mutate_chance = 1
    ∧ (⟨0, 0, 1, 0, 0, 0⟩ : NeuronConnection ℚ).weight_mutate_amount = 0
    ∧ NeuronConnection.mutate (fun _ => 0) ⟨0, 0, 1, 0, 0, 0⟩ 0 = none := by
  refine ⟨rfl, rfl, ?_⟩
  unfold NeuronConnection.mutate
  norm_num [genRange]

/-! ## C9: empty `layer_sizes` is rejected by all three constructors -/

/-- C9: with empty `layer_sizes`, `new_random` panics on `layer_sizes[0]`
in its first spawned task, `from_file` panics on `layer_sizes[0]` after a
header whose sentinel comes right after `num_outputs`, and `save_model`
panics on `layer_sizes[0]` when sizing `big_arr`: all three fail
(`none`), so non-empty `layer_sizes` is an unstated precondition. -/
theorem c9_empty_layer_sizes_fails :
    (∀ (g : ℕ → ℚ) (k ni no : ℕ) (a t w1 w2 o1 o2 : ℚ),
      Network.new_random g k [] ni no a t w1 w2 o1 o2 = none)
    ∧ (∀ (ni no : ℕ), ni < 2 ^ 64 → no < 2 ^ 64 → ∀ rest : List ℕ,
        Network.from_file
          (toBeBytes ni ++ toBeBytes no ++ toBeBytes sentinelWord ++ rest)
          = none)
    ∧ (∀ n : Network ℕ, n.layer_sizes = [] → n.save_model = none) := by
  refine ⟨fun g k ni no a t w1 w2 o1 o2 => rfl, fun ni no hni hno rest => ?_,
    fun n hn => ?_⟩
  · unfold Network.from_file
    rw [List.append_assoc, List.append_assoc]
    simp [readWord_toBe ni hni, readWord_toBe no hno, readLayerSizes_sentinel]
  · unfold Network.save_model
    rw [hn]
    simp

/-! ## C3: the activation formula -/

theorem get?_eq_some_getD {α : Type} (l : List α) (d : α) :
    ∀ n, n < l.length → l.get? n = some (l.getD n d) := by
  induction l with
  | nil => intro n h; simp at h
  | cons a t ih =>
      intro n h
      cases n with
      | zero => rfl
      | succ m => exact ih m (by simpa using h)

theorem activatedSum_eq (input : List ℕ) :
    ∀ (conns : List (NeuronConnection ℚ)) (byte bit : ℕ) (sum : ℚ),
      bit < 8 → 8 * byte + bit + conns.length ≤ 8 * input.length →
      activatedSum input conns byte bit sum
        = some (sum + actContrib input conns (8 * byte + bit)) := by
  intro conns
  induction conns with
  | nil => intro byte bit sum _ _; simp [activatedSum, actContrib]
  | cons c rest ih =>
      intro byte bit sum hbit hlen
      have hlt : byte < input.length := by
        simp only [List.length_cons] at hlen
        omega
      have hv := get?_eq_some_getD input 0 byte hlt
      have hmod : (8 * byte + bit) % 8 = bit := by omega
      have hdiv : (8 * byte + bit) / 8 = byte := by omega
      simp only [activatedSum, hv]
      have hbitAt : bitAt input (8 * byte + bit)
          = input.getD byte 0 >>> (7 - bit) &&& 1 := by
        rw [bitAt, hmod, hdiv]
      by_cases hb8 : bit + 1 = 8
      · rw [if_pos hb8]
        rw [ih (byte + 1) 0 _ (by omega) (by
          simp only [List.length_cons] at hlen
          omega)]
        simp only [actContrib, hbitAt]
        have he : 8 * (byte + 1) + 0 = 8 * byte + bit + 1 := by omega
        rw [he]
        exact congrArg some (by ring)
      · rw [if_neg hb8]
        rw [ih byte (bit + 1) _ (by omega) (by
          simp only [List.length_cons] at hlen
          omega)]
        simp only [actContrib, hbitAt]
        have he : 8 * byte + (bit + 1) = 8 * byte + bit + 1 := by omega
        rw [he]
        exact congrArg some (by ring)

theorem actContrib_eq_sum (input : List ℕ) :
    ∀ (l : List (NeuronConnection ℚ)) (p : ℕ),
      actContrib input l p
        = ∑ i ∈ Finset.range l.length,
            ((l.getD i cDefault).weight * (bitAt input (p + i) : ℚ)
              + (l.getD i cDefault).offset) := by
  intro l
  induction l with
  | nil => intro p; simp [actContrib]
  | cons c rest ih =>
      intro p
      rw [actContrib, List.length_cons, Finset.sum_range_succ']
      rw [Finset.sum_congr rfl (fun i _ => by
        rw [show p + (i + 1) = p + 1 + i from by omega, List.getD_cons_succ])]
      rw [← ih (p + 1)]
      simp only [List.getD_cons_zero, Nat.add_zero]
      ring

/-- C3: given at least `ceil(n/8)` input bytes, `activated` returns (no
index panic) exactly `Σ i, weight_i * b_i + offset_i > activation_thresh`,
where `b_i` is bit `7 - (i mod 8)` of byte `i / 8` of the input and each
offset is added unconditionally. -/
theorem c3_activated_formula (s : NeuronConnectionSet ℚ) (input : List ℕ)
    (h : (s.conns.length + 7) / 8 ≤ input.length) :
    s.activated input = some (decide (s.activation_thresh < specActSum s input)) := by
  unfold NeuronConnectionSet.activated
  rw [activatedSum_eq input s.conns 0 0 0 (by omega) (by omega)]
  rw [show (8 : ℕ) * 0 + 0 = 0 from by omega, actContrib_eq_sum input s.conns 0]
  simp only [Option.map_some']
  rw [specActSum]
  exact congrArg some (by
    rw [Finset.sum_congr rfl (fun i _ => by rw [Nat.zero_add])]
    simp)

theorem c3_activated_formula_witness :
    NeuronConnectionSet.activated ⟨[⟨2, 0, 0, 0, 0, 0⟩, ⟨3, 1, 0, 0, 0, 0⟩], 1, 0⟩ [192]
      = some (decide ((1 : ℚ) < specActSum ⟨[⟨2, 0, 0, 0, 0, 0⟩, ⟨3, 1, 0, 0, 0, 0⟩], 1, 0⟩ [192])) :=
  c3_activated_formula ⟨[⟨2, 0, 0, 0, 0, 0⟩, ⟨3, 1, 0, 0, 0, 0⟩], 1, 0⟩ [192]
    (by decide)

theorem c9_empty_layer_sizes_fails_witness :
    Network.new_random (fun _ => 0) 0 [] 1 1 0 0 0 0 0 0 = none
    ∧ Network.from_file
        (toBeBytes 1 ++ toBeBytes 1 ++ toBeBytes sentinelWord ++ []) = none
    ∧ Network.save_model ⟨[], [], 1, 1⟩ = none :=
  ⟨c9_empty_layer_sizes_fails.1 (fun _ => 0) 0 1 1 0 0 0 0 0 0,
   c9_empty_layer_sizes_fails.2.1 1 1 (by norm_num) (by norm_num) [],
   c9_empty_layer_sizes_fails.2.2 ⟨[], [], 1, 1⟩ rfl⟩

/-! ## C2: MSB-first packing with truncation -/

theorem setActs_cons (input : List ℕ) (s : NeuronConnectionSet ℚ)
    (rest : List (NeuronConnectionSet ℚ)) (acts : List Bool)
    (h : setActs input (s :: rest) = some acts) :
    ∃ a as, s.activated input = some a ∧ setActs input rest = some as
      ∧ acts = a :: as := by
  simp only [setActs] at h
  cases ha : s.activated input with
  | none => rw [ha] at h; simp at h
  | some a =>
      cases hs : setActs input rest with
      | none => rw [ha, hs] at h; simp at h
      | some as =>
          rw [ha, hs] at h
          simp at h
          exact ⟨a, as, rfl, rfl, h.symm⟩

theorem setActs_length (input : List ℕ) :
    ∀ (sets : List (NeuronConnectionSet ℚ)) (acts : List Bool),
      setActs input sets = some acts → acts.length = sets.length := by
  intro sets
  induction sets with
  | nil =>
      intro acts h
      simp only [setActs] at h
      simp at h
      simp [h]
  | cons s rest ih =>
      intro acts h
      obtain ⟨a, as, _, hs, rfl⟩ := setActs_cons input s rest acts h
      simp [ih as hs]

theorem layerActAux_eq (input : List ℕ) :
    ∀ (sets : List (NeuronConnectionSet ℚ)) (curr bit : ℕ) (acc : List ℕ)
      (acts : List Bool), setActs input sets = some acts →
      layerActAux input sets curr bit acc = some (acc ++ packAux acts curr bit) := by
  intro sets
  induction sets with
  | nil =>
      intro curr bit acc acts h
      simp only [setActs] at h
      simp at h
      subst h
      simp [layerActAux, packAux]
  | cons s rest ih =>
      intro curr bit acc acts h
      obtain ⟨a, as, ha, hs, rfl⟩ := setActs_cons input s rest acts h
      simp only [layerActAux, ha, packAux]
      by_cases hb : bit + 1 = 8
      · rw [if_pos hb, if_pos hb, ih _ _ _ as hs]
        simp
      · rw [if_neg hb, if_neg hb, ih _ _ _ as hs]

theorem packAux_small :
    ∀ (bs : List Bool) (curr bit : ℕ), bs.length + bit < 8 →
      packAux bs curr bit = [] := by
  intro bs
  induction bs with
  | nil => intro curr bit _; rfl
  | cons b rest ih =>
      intro curr bit h
      simp only [List.length_cons] at h
      simp only [packAux]
      rw [if_neg (by omega)]
      exact ih _ _ (by omega)

theorem packAux_step8 (b0 b1 b2 b3 b4 b5 b6 b7 : Bool) (rest : List Bool) :
    packAux (b0 :: b1 :: b2 :: b3 :: b4 :: b5 :: b6 :: b7 :: rest) 0 0
      = byteOfBitsMSB [b0, b1, b2, b3, b4, b5, b6, b7] :: packAux rest 0 0 := by
  simp only [packAux]
  norm_num
  revert b0 b1 b2 b3 b4 b5 b6 b7
  decide

theorem packTruncate_small :
    ∀ bs : List Bool, bs.length < 8 → packTruncate bs = [] := by
  intro bs h
  rcases bs with _ | ⟨b0, bs⟩
  · rfl
  rcases bs with _ | ⟨b1, bs⟩
  · rfl
  rcases bs with _ | ⟨b2, bs⟩
  · rfl
  rcases bs with _ | ⟨b3, bs⟩
  · rfl
  rcases bs with _ | ⟨b4, bs⟩
  · rfl
  rcases bs with _ | ⟨b5, bs⟩
  · rfl
  rcases bs with _ | ⟨b6, bs⟩
  · rfl
  rcases bs with _ | ⟨b7, bs⟩
  · rfl
  simp at h
  omega

theorem packAux_eq_packTruncate :
    ∀ (n : ℕ) (bs : List Bool), bs.length ≤ n → packAux bs 0 0 = packTruncate bs := by
  intro n
  induction n with
  | zero =>
      intro bs h
      rw [packAux_small bs 0 0 (by omega), packTruncate_small bs (by omega)]
  | succ m ih =>
      intro bs h
      by_cases h8 : 8 ≤ bs.length
      · rcases bs with _ | ⟨b0, bs⟩
        · simp at h8
        rcases bs with _ | ⟨b1, bs⟩
        · simp at h8
        rcases bs with _ | ⟨b2, bs⟩
        · simp at h8
        rcases bs with _ | ⟨b3, bs⟩
        · simp at h8
        rcases bs with _ | ⟨b4, bs⟩
        · simp at h8
        rcases bs with _ | ⟨b5, bs⟩
        · simp at h8
        rcases bs with _ | ⟨b6, bs⟩
        · simp at h8
        rcases bs with _ | ⟨b7, bs⟩
        · simp at h8
        rw [packAux_step8, packTruncate]
        rw [ih bs (by simp only [List.length_cons] at h; omega)]
      · rw [packAux_small bs 0 0 (by omega), packTruncate_small bs (by omega)]

theorem packTruncate_length :
    ∀ (n : ℕ) (bs : List Bool), bs.length ≤ n →
      (packTruncate bs).length = bs.length / 8 := by
  intro n
  induction n with
  | zero =>
      intro bs h
      rw [packTruncate_small bs (by omega)]
      simp
      omega
  | succ m ih =>
      intro bs h
      by_cases h8 : 8 ≤ bs.length
      · rcases bs with _ | ⟨b0, bs⟩
        · simp at h8
        rcases bs with _ | ⟨b1, bs⟩
        · simp at h8
        rcases bs with _ | ⟨b2, bs⟩
        · simp at h8
        rcases bs with _ | ⟨b3, bs⟩
        · simp at h8
        rcases bs with _ | ⟨b4, bs⟩
        · simp at h8
        rcases bs with _ | ⟨b5, bs⟩
        · simp at h8
        rcases bs with _ | ⟨b6, bs⟩
        · simp at h8
        rcases bs with _ | ⟨b7, bs⟩
        · simp at h8
        rw [packTruncate]
        simp only [List.length_cons]
        rw [ih bs (by simp only [List.length_cons] at h; omega)]
        omega
      · rw [packTruncate_small bs (by omega)]
        simp
        omega

/-- C2: `layer_activations` packs the per-set activation booleans MSB-first
and emits only full bytes: the output is `packTruncate` of the activation
sequence, whose length is `floor(n/8)` for `n` sets — the last `n mod 8`
activations are dropped, never padded. -/
theorem c2_layer_activations_truncate (m : NeuronConnectionMap ℚ)
    (input : List ℕ) (acts : List Bool) (h : setActs input m.map = some acts) :
    m.layer_activations input = some (packTruncate acts)
      ∧ (packTruncate acts).length = m.map.length / 8 := by
  constructor
  · unfold NeuronConnectionMap.layer_activations
    rw [layerActAux_eq input m.map 0 0 [] acts h]
    rw [packAux_eq_packTruncate acts.length acts (le_refl _)]
    simp
  · rw [packTruncate_length acts.length acts (le_refl _), setActs_length input m.map acts h]

theorem c2_layer_activations_truncate_witness :
    NeuronConnectionMap.layer_activations
      ⟨[⟨[], -1, 0⟩, ⟨[], 1, 0⟩, ⟨[], -1, 0⟩, ⟨[], -1, 0⟩, ⟨[], 1, 0⟩,
        ⟨[], -1, 0⟩, ⟨[], 1, 0⟩, ⟨[], -1, 0⟩, ⟨[], -1, 0⟩, ⟨[], 1, 0⟩]⟩ []
      = some [181] := by
  have h := c2_layer_activations_truncate
    ⟨[⟨[], -1, 0⟩, ⟨[], 1, 0⟩, ⟨[], -1, 0⟩, ⟨[], -1, 0⟩, ⟨[], 1, 0⟩,
      ⟨[], -1, 0⟩, ⟨[], 1, 0⟩, ⟨[], -1, 0⟩, ⟨[], -1, 0⟩, ⟨[], 1, 0⟩]⟩ []
    [true, false, true, true, false, true, false, true, true, false]
    (by decide)
  rw [h.1]
  rw [show packTruncate [true, false, true, true, false, true, false, true, true, false]
      = [181] from by decide]

/-! ## C4: `new_random` builds the declared shape -/

theorem newConns_length (g : ℕ → ℚ) (wmc wma omc oma : ℚ) :
    ∀ (size k : ℕ), ((newConns g wmc wma omc oma size k).1).length = size := by
  intro size
  induction size with
  | zero => intro k; rfl
  | succ m ih => intro k; simp [newConns, ih]

theorem newSets_length (g : ℕ → ℚ) (ns : ℕ) (at0 ts wmc wma omc oma : ℚ) :
    ∀ (size k : ℕ), ((newSets g ns at0 ts wmc wma omc oma size k).1).length = size := by
  intro size
  induction size with
  | zero => intro k; rfl
  | succ m ih => intro k; simp [newSets, ih]

theorem newSets_conns (g : ℕ → ℚ) (ns : ℕ) (at0 ts wmc wma omc oma : ℚ) :
    ∀ (size k : ℕ) (s : NeuronConnectionSet ℚ),
      s ∈ (newSets g ns at0 ts wmc wma omc oma size k).1 → s.conns.length = ns := by
  intro size
  induction size with
  | zero => intro k s hs; simp [newSets] at hs
  | succ m ih =>
      intro k s hs
      simp only [newSets, List.mem_cons] at hs
      cases hs with
      | inl h =>
          rw [h]
          exact newConns_length g wmc wma omc oma ns k
      | inr h => exact ih _ s h

theorem newMaps_length (g : ℕ → ℚ) (at0 ts wmc wma omc oma : ℚ) :
    ∀ (shapes : List (ℕ × ℕ)) (k : ℕ),
      ((newMaps g at0 ts wmc wma omc oma shapes k).1).length = shapes.length := by
  intro shapes
  induction shapes with
  | nil => intro k; rfl
  | cons sh rest ih => intro k; simp [newMaps, ih]

theorem newMaps_matchB (g : ℕ → ℚ) (at0 ts wmc wma omc oma : ℚ) :
    ∀ (shapes : List (ℕ × ℕ)) (k : ℕ),
      mapsMatchB ((newMaps g at0 ts wmc wma omc oma shapes k).1) shapes = true := by
  intro shapes
  induction shapes with
  | nil => intro k; rfl
  | cons sh rest ih =>
      intro k
      simp only [newMaps, mapsMatchB, Bool.and_eq_true, beq_iff_eq,
        List.all_eq_true]
      refine ⟨⟨?_, ?_⟩, ih _⟩
      · exact newSets_length g sh.2 at0 ts wmc wma omc oma sh.1 k
      · intro s hs
        exact newSets_conns g sh.2 at0 ts wmc wma omc oma sh.1 k s hs

theorem shapeList_length : ∀ (ls : List ℕ) (ni no : ℕ),
    (shapeList ls ni no).length = ls.length + 1 := by
  intro ls
  induction ls with
  | nil => intro ni no; rfl
  | cons a rest ih => intro ni no; simp [shapeList, ih]

/-- C4: for non-empty `layer_sizes`, `new_random` succeeds and builds
exactly `len(layer_sizes) + 1` maps whose `(out, in)` widths are the
`shapeList` pairs: map `i` has `layer_sizes[i]` (or `num_outputs` for the
last) sets, each of `num_inputs` (for the first) or `layer_sizes[i-1]`
connections. -/
theorem c4_new_random_shape (g : ℕ → ℚ) (k : ℕ) (ls : List ℕ) (ni no : ℕ)
    (at0 ts wmc wma omc oma : ℚ) (h : ls ≠ []) :
    ∃ (net : Network ℚ) (k2 : ℕ),
      Network.new_random g k ls ni no at0 ts wmc wma omc oma = some (net, k2)
      ∧ net.maps.length = ls.length + 1
      ∧ net.wfShape = true
      ∧ net.layer_sizes = ls ∧ net.num_inputs = ni ∧ net.num_outputs = no := by
  refine ⟨⟨(newMaps g at0 ts wmc wma omc oma (shapeList ls ni no) k).1, ls, ni, no⟩,
    (newMaps g at0 ts wmc wma omc oma (shapeList ls ni no) k).2, ?_, ?_, ?_, rfl, rfl, rfl⟩
  · unfold Network.new_random
    rw [if_neg (by simpa using h)]
  · rw [newMaps_length, shapeList_length]
  · unfold Network.wfShape
    exact newMaps_matchB g at0 ts wmc wma omc oma (shapeList ls ni no) k

theorem c4_new_random_shape_witness :
    (∃ (net : Network ℚ) (k2 : ℕ),
      Network.new_random (fun _ => 0) 0 [4, 3] 5 2 0 0 0 0 0 0 = some (net, k2)
      ∧ net.maps.length = 3
      ∧ net.wfShape = true
      ∧ net.layer_sizes = [4, 3] ∧ net.num_inputs = 5 ∧ net.num_outputs = 2)
    ∧ shapeList [4, 3] 5 2 = [(4, 5), (3, 4), (2, 3)] :=
  ⟨c4_new_random_shape (fun _ => 0) 0 [4, 3] 5 2 0 0 0 0 0 0 (by decide),
   by decide⟩

/-! ## C10: `random_trade` indexing vs. zip truncation -/

theorem tradeConns_fst_length (g : ℕ → ℚ) (p : ℚ) :
    ∀ (ss os : List (NeuronConnection ℚ)) (k : ℕ),
      ((tradeConns g p ss os k).1).length = ss.length := by
  intro ss
  induction ss with
  | nil => intro os k; cases os <;> rfl
  | cons s ss ih =>
      intro os k
      cases os with
      | nil => rfl
      | cons o os2 =>
          simp only [tradeConns]
          by_cases hg : g k < p
          · rw [if_pos hg]; simp [ih]
          · rw [if_neg hg]; simp [ih]

theorem tradeConns_snd_length (g : ℕ → ℚ) (p : ℚ) :
    ∀ (ss os : List (NeuronConnection ℚ)) (k : ℕ),
      ((tradeConns g p ss os k).2.1).length = os.length := by
  intro ss
  induction ss with
  | nil => intro os k; cases os <;> rfl
  | cons s ss ih =>
      intro os k
      cases os with
      | nil => rfl
      | cons o os2 =>
          simp only [tradeConns]
          by_cases hg : g k < p
          · rw [if_pos hg]; simp [ih]
          · rw [if_neg hg]; simp [ih]

theorem tradeConns_fst_ge (g : ℕ → ℚ) (p : ℚ) :
    ∀ (ss os : List (NeuronConnection ℚ)) (k j : ℕ), os.length ≤ j →
      ((tradeConns g p ss os k).1).get? j = ss.get? j := by
  intro ss
  induction ss with
  | nil => intro os k j h; cases os <;> rfl
  | cons s ss ih =>
      intro os k j h
      cases os with
      | nil => rfl
      | cons o os2 =>
          cases j with
          | zero => simp at h
          | succ j2 =>
              simp only [tradeConns]
              by_cases hg : g k < p
              · rw [if_pos hg]
                simp only [List.get?_cons_succ]
                exact ih os2 (k + 1) j2 (by simp at h; omega)
              · rw [if_neg hg]
                simp only [List.get?_cons_succ]
                exact ih os2 (k + 1) j2 (by simp at h; omega)

theorem tradeConns_snd_ge (g : ℕ → ℚ) (p : ℚ) :
    ∀ (ss os : List (NeuronConnection ℚ)) (k j : ℕ), ss.length ≤ j →
      ((tradeConns g p ss os k).2.1).get? j = os.get? j := by
  intro ss
  induction ss with
  | nil => intro os k j h; cases os <;> rfl
  | cons s ss ih =>
      intro os k j h
      cases os with
      | nil =>
          have h1 : ((tradeConns g p (s :: ss) [] k).2.1) = [] := rfl
          rw [h1]
      | cons o os2 =>
          cases j with
          | zero => simp at h
          | succ j2 =>
              simp only [tradeConns]
              by_cases hg : g k < p
              · rw [if_pos hg]
                simp only [List.get?_cons_succ]
                exact ih os2 (k + 1) j2 (by simp at h; omega)
              · rw [if_neg hg]
                simp only [List.get?_cons_succ]
                exact ih os2 (k + 1) j2 (by simp at h; omega)

theorem tradeSets_fst_ge (g : ℕ → ℚ) :
    ∀ (ss os : List (NeuronConnectionSet ℚ)) (k j : ℕ), os.length ≤ j →
      ((tradeSets g ss os k).1).get? j = ss.get? j := by
  intro ss
  induction ss with
  | nil => intro os k j h; cases os <;> rfl
  | cons s ss ih =>
      intro os k j h
      cases os with
      | nil => rfl
      | cons o os2 =>
          cases j with
          | zero => simp at h
          | succ j2 =>
              simp only [tradeSets]
              simp only [List.get?_cons_succ]
              exact ih os2 _ j2 (by simp at h; omega)

theorem tradeSets_snd_ge (g : ℕ → ℚ) :
    ∀ (ss os : List (NeuronConnectionSet ℚ)) (k j : ℕ), ss.length ≤ j →
      ((tradeSets g ss os k).2.1).get? j = os.get? j := by
  intro ss
  induction ss with
  | nil => intro os k j h; cases os <;> rfl
  | cons s ss ih =>
      intro os k j h
      cases os with
      | nil =>
          have h1 : ((tradeSets g (s :: ss) [] k).2.1) = [] := rfl
          rw [h1]
      | cons o os2 =>
          cases j with
          | zero => simp at h
          | succ j2 =>
              simp only [tradeSets]
              simp only [List.get?_cons_succ]
              exact ih os2 _ j2 (by simp at h; omega)

theorem tradeMaps_short_none (g : ℕ → ℚ) :
    ∀ (ms os : List (NeuronConnectionMap ℚ)) (k : ℕ), os.length < ms.length →
      tradeMaps g ms os k = none := by
  intro ms
  induction ms with
  | nil => intro os k h; simp at h
  | cons m ms ih =>
      intro os k h
      cases os with
      | nil => rfl
      | cons o os2 =>
          simp only [tradeMaps]
          rw [ih os2 _ (by simp at h; omega)]

/-- C10: `random_trade` panics (fails) exactly when `other` has fewer maps
than `self`, because it indexes `other.maps[i]` for every `i` below self's
length; by contrast the map- and set-level `trade_with` pair elements by
`zip`, so surplus sets or connections of the longer side are simply left
unchanged and no failure occurs. -/
theorem c10_random_trade_bounds (g : ℕ → ℚ) :
    (∀ (n o : Network ℚ) (k : ℕ), o.maps.length < n.maps.length →
      Network.random_trade g n o k = none)
    ∧ (∀ (m om : NeuronConnectionMap ℚ) (k j : ℕ), om.map.length ≤ j →
        ((m.trade_with g om k).1).map.get? j = m.map.get? j)
    ∧ (∀ (m om : NeuronConnectionMap ℚ) (k j : ℕ), m.map.length ≤ j →
        ((m.trade_with g om k).2.1).map.get? j = om.map.get? j)
    ∧ (∀ (s t : NeuronConnectionSet ℚ) (k j : ℕ), t.conns.length ≤ j →
        ((s.trade_with g t k).1).conns.get? j = s.conns.get? j)
    ∧ (∀ (s t : NeuronConnectionSet ℚ) (k j : ℕ), s.conns.length ≤ j →
        ((s.trade_with g t k).2.1).conns.get? j = t.conns.get? j) := by
  refine ⟨fun n o k h => ?_, fun m om k j h => ?_, fun m om k j h => ?_,
    fun s t k j h => ?_, fun s t k j h => ?_⟩
  · unfold Network.random_trade
    rw [tradeMaps_short_none g n.maps o.maps k h]
    rfl
  · exact tradeSets_fst_ge g m.map om.map k j h
  · exact tradeSets_snd_ge g m.map om.map k j h
  · exact tradeConns_fst_ge g s.trait_swap_chance s.conns t.conns k j h
  · exact tradeConns_snd_ge g s.trait_swap_chance s.conns t.conns k j h

theorem c10_random_trade_bounds_witness :
    Network.random_trade (fun _ => 0) ⟨[⟨[]⟩], [1], 1, 1⟩ ⟨[], [1], 1, 1⟩ 0 = none
    ∧ ((NeuronConnectionMap.trade_with (fun _ => 0) ⟨[⟨[], 0, 0⟩]⟩ ⟨[]⟩ 0).1).map.get? 0
        = some ⟨[], 0, 0⟩
    ∧ ((NeuronConnectionSet.trade_with (fun _ => 0) ⟨[], 0, 0⟩ ⟨[⟨1, 2, 3, 4, 5, 6⟩], 0, 0⟩ 0).2.1).conns.get? 0
        = some ⟨1, 2, 3, 4, 5, 6⟩ :=
  ⟨(c10_random_trade_bounds (fun _ => 0)).1 ⟨[⟨[]⟩], [1], 1, 1⟩ ⟨[], [1], 1, 1⟩ 0
      (by decide),
   (c10_random_trade_bounds (fun _ => 0)).2.1 ⟨[⟨[], 0, 0⟩]⟩ ⟨[]⟩ 0 0 (by decide),
   (c10_random_trade_bounds (fun _ => 0)).2.2.2.2 ⟨[], 0, 0⟩ ⟨[⟨1, 2, 3, 4, 5, 6⟩], 0, 0⟩ 0 0
      (by decide)⟩

/-! ## C7: crossover conservation -/

theorem tradeConns_pair (g : ℕ → ℚ) (p : ℚ) :
    ∀ (ss os : List (NeuronConnection ℚ)) (k j : ℕ),
      j < ss.length → j < os.length →
      (((tradeConns g p ss os k).1).get? j, ((tradeConns g p ss os k).2.1).get? j)
        = if g (k + j) < p then (os.get? j, ss.get? j)
          else (ss.get? j, os.get? j) := by
  intro ss
  induction ss with
  | nil => intro os k j h1 h2; simp at h1
  | cons s ss ih =>
      intro os k j h1 h2
      cases os with
      | nil => simp at h2
      | cons o os2 =>
          cases j with
          | zero =>
              simp only [tradeConns, Nat.add_zero]
              by_cases hg : g k < p
              · rw [if_pos hg, if_pos hg]
                rfl
              · rw [if_neg hg, if_neg hg]
                rfl
          | succ j2 =>
              simp only [tradeConns]
              rw [show k + (j2 + 1) = (k + 1) + j2 from by omega]
              by_cases hg : g k < p
              · rw [if_pos hg]
                simp only [List.get?_cons_succ]
                exact ih os2 (k + 1) j2 (by simp at h1; omega) (by simp at h2; omega)
              · rw [if_neg hg]
                simp only [List.get?_cons_succ]
                exact ih os2 (k + 1) j2 (by simp at h1; omega) (by simp at h2; omega)

theorem tradeConns_or (g : ℕ → ℚ) (p : ℚ)
    (ss os : List (NeuronConnection ℚ)) (k j : ℕ) :
    (((tradeConns g p ss os k).1).get? j, ((tradeConns g p ss os k).2.1).get? j)
        = (ss.get? j, os.get? j)
    ∨ (((tradeConns g p ss os k).1).get? j, ((tradeConns g p ss os k).2.1).get? j)
        = (os.get? j, ss.get? j) := by
  by_cases h1 : j < ss.length
  · by_cases h2 : j < os.length
    · rw [tradeConns_pair g p ss os k j h1 h2]
      by_cases hg : g (k + j) < p
      · right; rw [if_pos hg]
      · left; rw [if_neg hg]
    · left
      have ha : ((tradeConns g p ss os k).1).get? j = ss.get? j :=
        tradeConns_fst_ge g p ss os k j (by omega)
      have hb : ((tradeConns g p ss os k).2.1).get? j = none :=
        List.get?_eq_none.2 (by rw [tradeConns_snd_length]; omega)
      have hc : os.get? j = none := List.get?_eq_none.2 (by omega)
      rw [ha, hb, hc]
  · left
    have ha : ((tradeConns g p ss os k).2.1).get? j = os.get? j :=
      tradeConns_snd_ge g p ss os k j (by omega)
    have hb : ((tradeConns g p ss os k).1).get? j = none :=
      List.get?_eq_none.2 (by rw [tradeConns_fst_length]; omega)
    have hc : ss.get? j = none := List.get?_eq_none.2 (by omega)
    rw [ha, hb, hc]

theorem tradeSets_or (g : ℕ → ℚ) :
    ∀ (ss os : List (NeuronConnectionSet ℚ)) (k j l : ℕ),
      (getSC (tradeSets g ss os k).1 j l, getSC (tradeSets g ss os k).2.1 j l)
        = (getSC ss j l, getSC os j l)
      ∨ (getSC (tradeSets g ss os k).1 j l, getSC (tradeSets g ss os k).2.1 j l)
        = (getSC os j l, getSC ss j l) := by
  intro ss
  induction ss with
  | nil =>
      intro os k j l
      left
      rfl
  | cons s ss ih =>
      intro os k j l
      cases os with
      | nil => left; rfl
      | cons o os2 =>
          cases j with
          | zero =>
              simp only [tradeSets, getSC, NeuronConnectionSet.trade_with,
                List.get?_cons_zero, Option.some_bind]
              exact tradeConns_or g s.trait_swap_chance s.conns o.conns k l
          | succ j2 =>
              simp only [tradeSets, getSC, List.get?_cons_succ]
              exact ih os2 _ j2 l

theorem tradeMaps_or (g : ℕ → ℚ) :
    ∀ (ms os : List (NeuronConnectionMap ℚ)) (k : ℕ)
      (ms2 os2 : List (NeuronConnectionMap ℚ)) (k2 : ℕ),
      tradeMaps g ms os k = some (ms2, os2, k2) →
      ∀ i j l,
        (getMapsConn ms2 i j l, getMapsConn os2 i j l)
          = (getMapsConn ms i j l, getMapsConn os i j l)
        ∨ (getMapsConn ms2 i j l, getMapsConn os2 i j l)
          = (getMapsConn os i j l, getMapsConn ms i j l) := by
  intro ms
  induction ms with
  | nil =>
      intro os k ms2 os2 k2 h i j l
      simp only [tradeMaps] at h
      simp at h
      obtain ⟨rfl, rfl, rfl⟩ := h
      left
      rfl
  | cons m ms ih =>
      intro os k ms2 os2 k2 h i j l
      cases os with
      | nil => simp [tradeMaps] at h
      | cons o os2b =>
          simp only [tradeMaps] at h
          cases hrec : tradeMaps g ms os2b
              ((NeuronConnectionMap.trade_with g m o k).2.2) with
          | none => rw [hrec] at h; simp at h
          | some r2 =>
              rw [hrec] at h
              simp at h
              obtain ⟨rfl, rfl, rfl⟩ := h
              cases i with
              | zero =>
                  simp only [getMapsConn, List.get?_cons_zero, Option.some_bind,
                    NeuronConnectionMap.trade_with]
                  exact tradeSets_or g m.map o.map k j l
              | succ i2 =>
                  simp only [getMapsConn, List.get?_cons_succ]
                  exact ih os2b _ r2.1 r2.2.1 r2.2.2 (by rw [hrec]) i2 j l

theorem setsSameShape_length (ss os : List (NeuronConnectionSet ℚ))
    (h : setsSameShape ss os = true) : ss.length = os.length := by
  induction ss generalizing os with
  | nil => cases os with
    | nil => rfl
    | cons o os2 => simp [setsSameShape] at h
  | cons s ss ih =>
      cases os with
      | nil => simp [setsSameShape] at h
      | cons o os2 =>
          simp only [setsSameShape, Bool.and_eq_true] at h
          simp [ih os2 h.2]

theorem tradeMaps_some_of_shape (g : ℕ → ℚ) :
    ∀ (ms os : List (NeuronConnectionMap ℚ)) (k : ℕ),
      mapsSameShape ms os = true →
      ∃ r, tradeMaps g ms os k = some r := by
  intro ms
  induction ms with
  | nil =>
      intro os k h
      cases os with
      | nil => exact ⟨([], [], k), rfl⟩
      | cons o os2 => simp [mapsSameShape] at h
  | cons m ms ih =>
      intro os k h
      cases os with
      | nil => simp [mapsSameShape] at h
      | cons o os2 =>
          simp only [mapsSameShape, Bool.and_eq_true] at h
          obtain ⟨r2, hr2⟩ := ih os2 ((NeuronConnectionMap.trade_with g m o k).2.2) h.2
          refine ⟨((NeuronConnectionMap.trade_with g m o k).1 :: r2.1,
            (NeuronConnectionMap.trade_with g m o k).2.1 :: r2.2.1, r2.2.2), ?_⟩
          simp only [tradeMaps]
          rw [hr2]

/-- C7: for same-shaped networks `random_trade` succeeds and leaves, at
every slot (map i, set j, connection l), either the original pair of
connections or that pair exchanged wholesale — so the two-element multiset
at every slot is conserved (nothing duplicated, dropped or averaged);
moreover each per-pair swap decision compares the coin only against the
*self* set's `trait_swap_chance` (the other set's chance is never
consulted), as the second conjunct's exact decision formula shows. -/
theorem c7_random_trade_conservation (g : ℕ → ℚ) :
    (∀ (n o : Network ℚ) (k : ℕ), n.sameShape o = true →
      ∃ (n2 o2 : Network ℚ) (k2 : ℕ),
        Network.random_trade g n o k = some (n2, o2, k2)
        ∧ ∀ i j l,
          (getConn n2 i j l, getConn o2 i j l)
            = (getConn n i j l, getConn o i j l)
          ∨ (getConn n2 i j l, getConn o2 i j l)
            = (getConn o i j l, getConn n i j l))
    ∧ (∀ (s t : NeuronConnectionSet ℚ) (k j : ℕ),
        j < s.conns.length → j < t.conns.length →
        (((s.trade_with g t k).1).conns.get? j, ((s.trade_with g t k).2.1).conns.get? j)
          = if g (k + j) < s.trait_swap_chance
            then (t.conns.get? j, s.conns.get? j)
            else (s.conns.get? j, t.conns.get? j)) := by
  constructor
  · intro n o k h
    obtain ⟨r, hr⟩ := tradeMaps_some_of_shape g n.maps o.maps k h
    refine ⟨{ n with maps := r.1 }, { o with maps := r.2.1 }, r.2.2, ?_, ?_⟩
    · unfold Network.random_trade
      rw [hr]
      rfl
    · intro i j l
      exact tradeMaps_or g n.maps o.maps k r.1 r.2.1 r.2.2 (by rw [hr]) i j l
  · intro s t k j h1 h2
    unfold NeuronConnectionSet.trade_with
    exact tradeConns_pair g s.trait_swap_chance s.conns t.conns k j h1 h2

theorem c7_random_trade_conservation_witness :
    (∃ (n2 o2 : Network ℚ) (k2 : ℕ),
      Network.random_trade (fun _ => 0) ⟨[⟨[⟨[⟨1, 1, 1, 1, 1, 1⟩], 0, 1⟩]⟩], [1], 1, 1⟩
        ⟨[⟨[⟨[⟨2, 2, 2, 2, 2, 2⟩], 0, 0⟩]⟩], [1], 1, 1⟩ 0 = some (n2, o2, k2)
      ∧ ∀ i j l,
        (getConn n2 i j l, getConn o2 i j l)
          = (getConn ⟨[⟨[⟨[⟨1, 1, 1, 1, 1, 1⟩], 0, 1⟩]⟩], [1], 1, 1⟩ i j l,
             getConn ⟨[⟨[⟨[⟨2, 2, 2, 2, 2, 2⟩], 0, 0⟩]⟩], [1], 1, 1⟩ i j l)
        ∨ (getConn n2 i j l, getConn o2 i j l)
          = (getConn ⟨[⟨[⟨[⟨2, 2, 2, 2, 2, 2⟩], 0, 0⟩]⟩], [1], 1, 1⟩ i j l,
             getConn ⟨[⟨[⟨[⟨1, 1, 1, 1, 1, 1⟩], 0, 1⟩]⟩], [1], 1, 1⟩ i j l))
    ∧ (((NeuronConnectionSet.trade_with (fun _ => 0) ⟨[⟨1, 1, 1, 1, 1, 1⟩], 0, 1⟩
          ⟨[⟨2, 2, 2, 2, 2, 2⟩], 0, 0⟩ 0).1).conns.get? 0,
        ((NeuronConnectionSet.trade_with (fun _ => 0) ⟨[⟨1, 1, 1, 1, 1, 1⟩], 0, 1⟩
          ⟨[⟨2, 2, 2, 2, 2, 2⟩], 0, 0⟩ 0).2.1).conns.get? 0)
        = if (fun _ => (0 : ℚ)) (0 + 0) < (1 : ℚ)
          then (some ⟨2, 2, 2, 2, 2, 2⟩, some ⟨1, 1, 1, 1, 1, 1⟩)
          else (some ⟨1, 1, 1, 1, 1, 1⟩, some ⟨2, 2, 2, 2, 2, 2⟩) :=
  ⟨(c7_random_trade_conservation (fun _ => 0)).1
      ⟨[⟨[⟨[⟨1, 1, 1, 1, 1, 1⟩], 0, 1⟩]⟩], [1], 1, 1⟩
      ⟨[⟨[⟨[⟨2, 2, 2, 2, 2, 2⟩], 0, 0⟩]⟩], [1], 1, 1⟩ 0 (by decide),
   (c7_random_trade_conservation (fun _ => 0)).2
      ⟨[⟨1, 1, 1, 1, 1, 1⟩], 0, 1⟩ ⟨[⟨2, 2, 2, 2, 2, 2⟩], 0, 0⟩ 0 0
      (by decide) (by decide)⟩

/-! ## C1 / C6: the binary model format -/

theorem parseConn_encode (c : NeuronConnection ℕ) (rest : List ℕ)
    (h1 : c.weight < 2 ^ 64) (h2 : c.offset < 2 ^ 64)
    (h3 : c.weight_mutate_chance < 2 ^ 64) (h4 : c.weight_mutate_amount < 2 ^ 64)
    (h5 : c.offset_mutate_chance < 2 ^ 64) (h6 : c.offset_mutate_amount < 2 ^ 64) :
    parseConn (encodeConn c ++ rest) = some (c, rest) := by
  simp [parseConn, encodeConn, List.append_assoc,
    readWord_toBe _ h1, readWord_toBe _ h2, readWord_toBe _ h3,
    readWord_toBe _ h4, readWord_toBe _ h5, readWord_toBe _ h6]

theorem parseConns_encode :
    ∀ (cs : List (NeuronConnection ℕ)) (rest : List ℕ),
      (∀ c ∈ cs, connBounded c = true) →
      parseConns cs.length ((cs.map encodeConn).flatten ++ rest) = some (cs, rest) := by
  intro cs
  induction cs with
  | nil => intro rest _; rfl
  | cons c cs ih =>
      intro rest h
      have hc := h c (by simp)
      simp only [connBounded, Bool.and_eq_true, decide_eq_true_eq] at hc
      simp only [List.map_cons, List.flatten_cons, List.append_assoc,
        List.length_cons, parseConns]
      rw [parseConn_encode c _ (by omega) (by omega) (by omega) (by omega)
        (by omega) (by omega)]
      simp only [Option.bind_eq_bind, Option.some_bind]
      rw [ih rest (fun x hx => h x (by simp [hx]))]
      rfl

theorem parseSet_encode (s : NeuronConnectionSet ℕ) (rest : List ℕ)
    (hc : ∀ c ∈ s.conns, connBounded c = true)
    (ha : s.activation_thresh < 2 ^ 64) (ht : s.trait_swap_chance < 2 ^ 64) :
    parseSet s.conns.length (encodeSet s ++ rest) = some (s, rest) := by
  obtain ⟨cs, at0, ts⟩ := s
  simp only [encodeSet, List.append_assoc, parseSet]
  rw [parseConns_encode cs _ hc]
  simp only [Option.bind_eq_bind, Option.some_bind]
  rw [readWord_toBe _ ha]
  simp only [Option.some_bind]
  rw [readWord_toBe _ ht]
  rfl

theorem parseSets_encode :
    ∀ (sets : List (NeuronConnectionSet ℕ)) (inW : ℕ) (rest : List ℕ),
      (∀ s ∈ sets, s.conns.length = inW) →
      (∀ s ∈ sets, (∀ c ∈ s.conns, connBounded c = true)
        ∧ s.activation_thresh < 2 ^ 64 ∧ s.trait_swap_chance < 2 ^ 64) →
      parseSets sets.length inW ((sets.map encodeSet).flatten ++ rest)
        = some (sets, rest) := by
  intro sets
  induction sets with
  | nil => intro inW rest _ _; rfl
  | cons s sets ih =>
      intro inW rest hlen hb
      obtain ⟨hc, ha, ht⟩ := hb s (by simp)
      simp only [List.map_cons, List.flatten_cons, List.append_assoc,
        List.length_cons, parseSets]
      rw [← hlen s (by simp), parseSet_encode s _ hc ha ht]
      simp only [Option.bind_eq_bind, Option.some_bind]
      rw [ih s.conns.length rest (fun x hx => by
          rw [hlen x (by simp [hx]), hlen s (by simp)])
        (fun x hx => hb x (by simp [hx]))]
      rfl

theorem mapsBounded_elim (maps : List (NeuronConnectionMap ℕ))
    (h : mapsBounded maps = true) :
    ∀ m ∈ maps, ∀ s ∈ m.map, (∀ c ∈ s.conns, connBounded c = true)
      ∧ s.activation_thresh < 2 ^ 64 ∧ s.trait_swap_chance < 2 ^ 64 := by
  intro m hm s hs
  simp only [mapsBounded, List.all_eq_true] at h
  have h2 := h m hm s hs
  simp only [Bool.and_eq_true, List.all_eq_true, decide_eq_true_eq] at h2
  exact ⟨h2.1.1, h2.1.2, h2.2⟩

theorem parseMaps_encode :
    ∀ (maps : List (NeuronConnectionMap ℕ)) (shapes : List (ℕ × ℕ)) (rest : List ℕ),
      mapsMatchB maps shapes = true → mapsBounded maps = true →
      parseMapsFromShapes shapes (encodeMaps maps ++ rest) = some (maps, rest) := by
  intro maps
  induction maps with
  | nil =>
      intro shapes rest hm _
      cases shapes with
      | nil => rfl
      | cons sh shapes => simp [mapsMatchB] at hm
  | cons m maps ih =>
      intro shapes rest hm hb
      cases shapes with
      | nil => simp [mapsMatchB] at hm
      | cons sh shapes =>
          simp only [mapsMatchB, Bool.and_eq_true, beq_iff_eq,
            List.all_eq_true] at hm
          obtain ⟨⟨hout, hin⟩, hrest⟩ := hm
          have hball := mapsBounded_elim (m :: maps) hb
          have hbrest : mapsBounded maps = true := by
            simp only [mapsBounded, List.all_cons, Bool.and_eq_true] at hb
            simp only [mapsBounded]
            exact hb.2
          simp only [encodeMaps, List.map_cons, List.flatten_cons,
            List.append_assoc, parseMapsFromShapes]
          rw [← hout, encodeMap,
            parseSets_encode m.map sh.2 _ (fun x hx => by
              simpa using hin x hx)
            (fun x hx => hball m (by simp) x hx)]
          simp only [Option.bind_eq_bind, Option.some_bind]
          have ihr := ih shapes rest hrest hbrest
          rw [show encodeMaps maps = (maps.map encodeMap).flatten from rfl] at ihr
          rw [ihr]
          rfl

theorem encodeConn_length (c : NeuronConnection ℕ) : (encodeConn c).length = 48 := by
  simp [encodeConn, toBeBytes]

theorem encodeConnsFlat_length :
    ∀ cs : List (NeuronConnection ℕ), ((cs.map encodeConn).flatten).length = 48 * cs.length := by
  intro cs
  induction cs with
  | nil => rfl
  | cons c cs ih =>
      simp only [List.map_cons, List.flatten_cons, List.length_append, ih,
        encodeConn_length, List.length_cons]
      ring

theorem encodeSet_length (s : NeuronConnectionSet ℕ) :
    (encodeSet s).length = 48 * s.conns.length + 16 := by
  rw [encodeSet, List.length_append, List.length_append, encodeConnsFlat_length]
  simp [toBeBytes]

theorem encodeSetsFlat_length :
    ∀ (sets : List (NeuronConnectionSet ℕ)) (inW : ℕ),
      (∀ s ∈ sets, s.conns.length = inW) →
      ((sets.map encodeSet).flatten).length = sets.length * (48 * inW + 16) := by
  intro sets
  induction sets with
  | nil => intro inW _; simp
  | cons s sets ih =>
      intro inW h
      simp only [List.map_cons, List.flatten_cons, List.length_append,
        encodeSet_length, List.length_cons]
      rw [ih inW (fun x hx => h x (by simp [hx])), h s (by simp)]
      ring

theorem encodeMap_length (m : NeuronConnectionMap ℕ) (outW inW : ℕ)
    (hout : m.map.length = outW) (hin : ∀ s ∈ m.map, s.conns.length = inW) :
    (encodeMap m).length = outW * (48 * inW + 16) := by
  rw [encodeMap, encodeSetsFlat_length m.map inW hin, hout]

theorem encodeMaps_length :
    ∀ (maps : List (NeuronConnectionMap ℕ)) (shapes : List (ℕ × ℕ)),
      mapsMatchB maps shapes = true →
      (encodeMaps maps).length = sizeOfShapes shapes := by
  intro maps
  induction maps with
  | nil =>
      intro shapes hm
      cases shapes with
      | nil => rfl
      | cons sh shapes => simp [mapsMatchB] at hm
  | cons m maps ih =>
      intro shapes hm
      cases shapes with
      | nil => simp [mapsMatchB] at hm
      | cons sh shapes =>
          simp only [mapsMatchB, Bool.and_eq_true, beq_iff_eq,
            List.all_eq_true] at hm
          obtain ⟨⟨hout, hin⟩, hrest⟩ := hm
          simp only [encodeMaps, List.map_cons, List.flatten_cons,
            List.length_append, sizeOfShapes, List.map_cons, List.sum_cons]
          rw [encodeMap_length m sh.1 sh.2 hout (fun x hx => by simpa using hin x hx)]
          rw [show ((maps.map encodeMap).flatten).length = (encodeMaps maps).length from rfl]
          rw [ih shapes hrest]
          rfl

theorem bigArrSize_eq :
    ∀ (ls : List ℕ) (ni no : ℕ), ls ≠ [] →
      bigArrSize ls ni no = sizeOfShapes (shapeList ls ni no) := by
  intro ls
  induction ls with
  | nil => intro ni no h; exact absurd rfl h
  | cons a rest ih =>
      intro ni no _
      cases rest with
      | nil =>
          simp [bigArrSize, shapeList, sizeOfShapes]
          ring
      | cons b rest2 =>
          rw [shapeList]
          simp only [sizeOfShapes, List.map_cons, List.sum_cons]
          rw [show (List.map (fun sh => sh.1 * (48 * sh.2 + 16)) (shapeList (b :: rest2) a no)).sum
              = sizeOfShapes (shapeList (b :: rest2) a no) from rfl]
          rw [← ih a no (by simp)]
          simp only [bigArrSize, List.headD_cons, List.tail_cons,
            List.zip_cons_cons, List.map_cons, List.sum_cons]
          rw [show (a :: b :: rest2).getLastD 0 = (b :: rest2).getLastD 0 from rfl]
          ring

/-- C1: for a well-formed Network (shape matching its metadata, per the
data model) with non-empty `layer_sizes` containing no sentinel value,
and all 64-bit fields in range (automatic for `usize`/`f64` bit patterns),
`save_model` succeeds and `from_file` on the written bytes reproduces the
network bit-for-bit in every field. -/
theorem c1_save_load_round_trip (n : Network ℕ)
    (h1 : n.layer_sizes ≠ [])
    (h2 : ∀ x ∈ n.layer_sizes, x ≠ sentinelWord)
    (h3 : ∀ x ∈ n.layer_sizes, x < 2 ^ 64)
    (h4 : n.num_inputs < 2 ^ 64) (h5 : n.num_outputs < 2 ^ 64)
    (h6 : n.wfShape = true) (h7 : mapsBounded n.maps = true) :
    ∃ file, n.save_model = some file ∧ Network.from_file file = some n := by
  obtain ⟨maps, ls, ni, no⟩ := n
  simp only [Network.wfShape] at h6
  simp only at h1 h2 h3 h4 h5 h7
  have hlen : (encodeMaps maps).length = sizeOfShapes (shapeList ls ni no) :=
    encodeMaps_length maps (shapeList ls ni no) h6
  have hsize : bigArrSize ls ni no = sizeOfShapes (shapeList ls ni no) :=
    bigArrSize_eq ls ni no h1
  have hbody : bigArrSize ls ni no = (encodeMaps maps).length := by omega
  refine ⟨toBeBytes ni ++ toBeBytes no ++ (ls.map toBeBytes).flatten
    ++ toBeBytes sentinelWord ++ encodeMaps maps, ?_, ?_⟩
  · unfold Network.save_model
    simp only
    rw [if_neg (by simpa using h1)]
    rw [if_neg (by omega)]
    rw [show bigArrSize ls ni no - (encodeMaps maps).length = 0 from by omega]
    simp
  · unfold Network.from_file
    rw [List.append_assoc, List.append_assoc, List.append_assoc]
    rw [readWord_toBe ni h4]
    simp only [Option.bind_eq_bind, Option.some_bind]
    rw [readWord_toBe no h5]
    simp only [Option.some_bind]
    rw [← List.append_assoc ((ls.map toBeBytes).flatten) (toBeBytes sentinelWord)
      (encodeMaps maps)]
    rw [readLayerSizes_encode ls _ h3 h2]
    simp only [Option.some_bind]
    rw [if_neg (by simpa using h1)]
    rw [if_neg (by omega)]
    rw [show List.take (bigArrSize ls ni no) (encodeMaps maps)
        = encodeMaps maps from by rw [hbody]; exact List.take_length _]
    rw [show encodeMaps maps = encodeMaps maps ++ [] from by simp]
    rw [parseMaps_encode maps (shapeList ls ni no) [] h6 h7]
    rfl

theorem c1_save_load_round_trip_witness :
    ∃ file,
      Network.save_model
        ⟨[⟨[⟨[⟨1, 2, 3, 4, 5, 6⟩], 7, 8⟩]⟩, ⟨[⟨[⟨9, 10, 11, 12, 13, 14⟩], 15, 16⟩]⟩],
          [1], 1, 1⟩ = some file
      ∧ Network.from_file file = some
        ⟨[⟨[⟨[⟨1, 2, 3, 4, 5, 6⟩], 7, 8⟩]⟩, ⟨[⟨[⟨9, 10, 11, 12, 13, 14⟩], 15, 16⟩]⟩],
          [1], 1, 1⟩ :=
  c1_save_load_round_trip
    ⟨[⟨[⟨[⟨1, 2, 3, 4, 5, 6⟩], 7, 8⟩]⟩, ⟨[⟨[⟨9, 10, 11, 12, 13, 14⟩], 15, 16⟩]⟩],
      [1], 1, 1⟩
    (by decide) (by decide) (by decide) (by decide) (by decide) (by decide) (by decide)

set_option maxRecDepth 8000 in
/-- C6 counterexample: a file for header `(1, 1, [1])` whose body is 129
bytes — one more than the computed size `bigArrSize [1] 1 1 = 128` — loads
successfully (the trailing byte is silently ignored), contradicting the
claim that any size mismatch, longer included, fails to load. -/
theorem c6_size_mismatch_counterexample :
    (List.replicate 128 (0 : ℕ) ++ [7]).length ≠ bigArrSize [1] 1 1
    ∧ (Network.from_file (toBeBytes 1 ++ toBeBytes 1 ++ toBeBytes 1
        ++ toBeBytes sentinelWord ++ (List.replicate 128 (0 : ℕ) ++ [7]))).isSome
        = true := by
  constructor
  · decide
  · decide

theorem readWord_sufficient : ∀ (bs : List ℕ), 8 ≤ bs.length →
    ∃ w rest, readWord bs = some (w, rest) ∧ rest.length + 8 = bs.length := by
  intro bs h
  rcases bs with _ | ⟨b0, bs⟩
  · simp at h
  rcases bs with _ | ⟨b1, bs⟩
  · simp at h
  rcases bs with _ | ⟨b2, bs⟩
  · simp at h
  rcases bs with _ | ⟨b3, bs⟩
  · simp at h
  rcases bs with _ | ⟨b4, bs⟩
  · simp at h
  rcases bs with _ | ⟨b5, bs⟩
  · simp at h
  rcases bs with _ | ⟨b6, bs⟩
  · simp at h
  rcases bs with _ | ⟨b7, bs⟩
  · simp at h
  exact ⟨fromBeBytesList [b0, b1, b2, b3, b4, b5, b6, b7], bs, rfl, by simp⟩

theorem parseConn_sufficient (bs : List ℕ) (h : 48 ≤ bs.length) :
    ∃ c rest, parseConn bs = some (c, rest) ∧ rest.length + 48 = bs.length := by
  obtain ⟨w1, r1, e1, l1⟩ := readWord_sufficient bs (by omega)
  obtain ⟨w2, r2, e2, l2⟩ := readWord_sufficient r1 (by omega)
  obtain ⟨w3, r3, e3, l3⟩ := readWord_sufficient r2 (by omega)
  obtain ⟨w4, r4, e4, l4⟩ := readWord_sufficient r3 (by omega)
  obtain ⟨w5, r5, e5, l5⟩ := readWord_sufficient r4 (by omega)
  obtain ⟨w6, r6, e6, l6⟩ := readWord_sufficient r5 (by omega)
  refine ⟨⟨w1, w2, w3, w4, w5, w6⟩, r6, ?_, by omega⟩
  simp [parseConn, e1, e2, e3, e4, e5, e6]

theorem parseConns_sufficient : ∀ (cnt : ℕ) (bs : List ℕ), 48 * cnt ≤ bs.length →
    ∃ cs rest, parseConns cnt bs = some (cs, rest)
      ∧ rest.length + 48 * cnt = bs.length := by
  intro cnt
  induction cnt with
  | zero => intro bs h; exact ⟨[], bs, rfl, by omega⟩
  | succ m ih =>
      intro bs h
      obtain ⟨c, r1, e1, l1⟩ := parseConn_sufficient bs (by omega)
      obtain ⟨cs, r2, e2, l2⟩ := ih r1 (by omega)
      refine ⟨c :: cs, r2, ?_, by omega⟩
      simp [parseConns, e1, e2]

theorem parseSet_sufficient (inW : ℕ) (bs : List ℕ) (h : 48 * inW + 16 ≤ bs.length) :
    ∃ s rest, parseSet inW bs = some (s, rest)
      ∧ rest.length + (48 * inW + 16) = bs.length := by
  obtain ⟨cs, r1, e1, l1⟩ := parseConns_sufficient inW bs (by omega)
  obtain ⟨at0, r2, e2, l2⟩ := readWord_sufficient r1 (by omega)
  obtain ⟨ts, r3, e3, l3⟩ := readWord_sufficient r2 (by omega)
  refine ⟨⟨cs, at0, ts⟩, r3, ?_, by omega⟩
  simp [parseSet, e1, e2, e3]

theorem parseSets_sufficient :
    ∀ (cnt inW : ℕ) (bs : List ℕ), cnt * (48 * inW + 16) ≤ bs.length →
      ∃ v rest, parseSets cnt inW bs = some (v, rest)
        ∧ rest.length + cnt * (48 * inW + 16) = bs.length := by
  intro cnt
  induction cnt with
  | zero => intro inW bs h; exact ⟨[], bs, rfl, by simp⟩
  | succ m ih =>
      intro inW bs h
      rw [Nat.succ_mul] at h
      obtain ⟨s, r1, e1, l1⟩ := parseSet_sufficient inW bs
        (le_trans (Nat.le_add_left _ _) h)
      have hm : m * (48 * inW + 16) ≤ r1.length := by
        rw [← l1] at h
        exact Nat.le_of_add_le_add_right h
      obtain ⟨v, r2, e2, l2⟩ := ih inW r1 hm
      refine ⟨s :: v, r2, ?_, ?_⟩
      · simp [parseSets, e1, e2]
      · rw [Nat.succ_mul, ← Nat.add_assoc, l2, l1]

theorem parseMaps_sufficient :
    ∀ (shapes : List (ℕ × ℕ)) (bs : List ℕ), sizeOfShapes shapes ≤ bs.length →
      ∃ v rest, parseMapsFromShapes shapes bs = some (v, rest)
        ∧ rest.length + sizeOfShapes shapes = bs.length := by
  intro shapes
  induction shapes with
  | nil => intro bs h; exact ⟨[], bs, rfl, by simp [sizeOfShapes]⟩
  | cons sh shapes ih =>
      intro bs h
      rw [show sizeOfShapes (sh :: shapes)
          = sh.1 * (48 * sh.2 + 16) + sizeOfShapes shapes from by
        simp [sizeOfShapes]] at h
      obtain ⟨sets, r1, e1, l1⟩ := parseSets_sufficient sh.1 sh.2 bs
        (le_trans (Nat.le_add_right _ _) h)
      have h2 : sizeOfShapes shapes ≤ r1.length := by
        rw [← l1, Nat.add_comm (sh.1 * (48 * sh.2 + 16)) (sizeOfShapes shapes)] at h
        exact Nat.le_of_add_le_add_right h
      obtain ⟨v, r2, e2, l2⟩ := ih r1 h2
      refine ⟨⟨sets⟩ :: v, r2, ?_, ?_⟩
      · simp [parseMapsFromShapes, e1, e2]
      · rw [show sizeOfShapes (sh :: shapes)
            = sh.1 * (48 * sh.2 + 16) + sizeOfShapes shapes from by
          simp [sizeOfShapes]]
        rw [Nat.add_comm (sh.1 * (48 * sh.2 + 16)) (sizeOfShapes shapes),
          ← Nat.add_assoc, l2, l1]

theorem fromFile_header (ni no : ℕ) (ls : List ℕ) (tail : List ℕ)
    (hni : ni < 2 ^ 64) (hno : no < 2 ^ 64) (hne : ls ≠ [])
    (hb : ∀ x ∈ ls, x < 2 ^ 64) (hs : ∀ x ∈ ls, x ≠ sentinelWord) :
    Network.from_file (toBeBytes ni ++ toBeBytes no ++ (ls.map toBeBytes).flatten
      ++ toBeBytes sentinelWord ++ tail)
    = if tail.length < bigArrSize ls ni no then none
      else (parseMapsFromShapes (shapeList ls ni no)
          (tail.take (bigArrSize ls ni no))).bind
        (fun r => some ⟨r.1, ls, ni, no⟩) := by
  unfold Network.from_file
  rw [List.append_assoc, List.append_assoc, List.append_assoc]
  rw [readWord_toBe ni hni]
  simp only [Option.bind_eq_bind, Option.some_bind]
  rw [readWord_toBe no hno]
  simp only [Option.some_bind]
  rw [← List.append_assoc ((ls.map toBeBytes).flatten) (toBeBytes sentinelWord) tail]
  rw [readLayerSizes_encode ls _ hb hs]
  simp only [Option.some_bind]
  rw [if_neg (by simpa using hne)]

/-- C6 (amended): a file whose body is SHORTER than the size computed from
its declared header fails to load (`read_exact` fails); and every file
whose body is at least the computed size — in particular any LONGER body —
loads successfully, parsing exactly the computed-size prefix: loading the
full file and loading just its computed-size prefix yield the same network,
so the trailing bytes are silently ignored, never rejected. -/
theorem c6_size_mismatch_amended :
    (∀ (ni no : ℕ) (ls : List ℕ) (body : List ℕ),
      ni < 2 ^ 64 → no < 2 ^ 64 → ls ≠ [] →
      (∀ x ∈ ls, x < 2 ^ 64) → (∀ x ∈ ls, x ≠ sentinelWord) →
      body.length < bigArrSize ls ni no →
      Network.from_file (toBeBytes ni ++ toBeBytes no ++ (ls.map toBeBytes).flatten
        ++ toBeBytes sentinelWord ++ body) = none)
    ∧ (∀ (ni no : ℕ) (ls : List ℕ) (body : List ℕ),
      ni < 2 ^ 64 → no < 2 ^ 64 → ls ≠ [] →
      (∀ x ∈ ls, x < 2 ^ 64) → (∀ x ∈ ls, x ≠ sentinelWord) →
      bigArrSize ls ni no ≤ body.length →
      ∃ net, Network.from_file (toBeBytes ni ++ toBeBytes no
          ++ (ls.map toBeBytes).flatten ++ toBeBytes sentinelWord ++ body)
          = some net
        ∧ Network.from_file (toBeBytes ni ++ toBeBytes no
            ++ (ls.map toBeBytes).flatten ++ toBeBytes sentinelWord
            ++ body.take (bigArrSize ls ni no)) = some net) := by
  constructor
  · intro ni no ls body hni hno hne hb hs hshort
    rw [fromFile_header ni no ls body hni hno hne hb hs, if_pos hshort]
  · intro ni no ls body hni hno hne hb hs hlong
    have hsz := bigArrSize_eq ls ni no hne
    have htk : (body.take (bigArrSize ls ni no)).length = bigArrSize ls ni no := by
      rw [List.length_take]
      omega
    obtain ⟨v, rest, hparse, _⟩ := parseMaps_sufficient (shapeList ls ni no)
      (body.take (bigArrSize ls ni no)) (by omega)
    refine ⟨⟨v, ls, ni, no⟩, ?_, ?_⟩
    · rw [fromFile_header ni no ls body hni hno hne hb hs,
        if_neg (by omega), hparse]
      rfl
    · rw [fromFile_header ni no ls (body.take (bigArrSize ls ni no)) hni hno hne hb hs,
        if_neg (by omega)]
      rw [show List.take (bigArrSize ls ni no) (body.take (bigArrSize ls ni no))
          = body.take (bigArrSize ls ni no) from by rw [List.take_take]; simp]
      rw [hparse]
      rfl

set_option maxRecDepth 8000 in
theorem c6_size_mismatch_amended_witness :
    Network.from_file (toBeBytes 1 ++ toBeBytes 1 ++ ([(1 : ℕ)].map toBeBytes).flatten
      ++ toBeBytes sentinelWord ++ []) = none
    ∧ ∃ net,
      Network.from_file (toBeBytes 1 ++ toBeBytes 1 ++ ([(1 : ℕ)].map toBeBytes).flatten
        ++ toBeBytes sentinelWord ++ (List.replicate 128 (0 : ℕ) ++ [7])) = some net
      ∧ Network.from_file (toBeBytes 1 ++ toBeBytes 1 ++ ([(1 : ℕ)].map toBeBytes).flatten
        ++ toBeBytes sentinelWord
        ++ (List.replicate 128 (0 : ℕ) ++ [7]).take (bigArrSize [1] 1 1)) = some net :=
  ⟨c6_size_mismatch_amended.1 1 1 [1] [] (by norm_num) (by norm_num) (by decide)
      (by decide) (by decide) (by decide),
   c6_size_mismatch_amended.2 1 1 [1] (List.replicate 128 (0 : ℕ) ++ [7])
      (by norm_num) (by norm_num) (by decide) (by decide) (by decide) (by decide)⟩
